import Mathlib

/-!
Verification of the ParsVerse terminology-normalization and
prompt-construction pipeline (`story_generator.py`).

Text is modelled as `List Char` (wrapped in `String` at the interface).
Every banned-term and exonym pattern in the source is a case-insensitive
whole-word literal (`\b...\b`, sometimes with a short optional suffix such
as `veda(s)?`), so one `re.sub` pass is modelled exactly as: replace every
maximal word-character run whose lowercasing is one of the pattern's
accepted forms, leave all other characters unchanged.  The whitespace
normalizations `[ \t]{2,} -> " "`, `\n{3,} -> "\n\n"` and `\s{2,} -> " "`
rewrite maximal runs of the matched class and are modelled as such.
Python's Unicode `\w`, casefolding and `str.strip`/`\s` whitespace are
approximated by the ASCII rules plus the non-ASCII letters that occur in
the repository's tables; the approximation is shared by the scrubber and
the detector, mirroring the source where both use the same compiled
pattern list.
-/

namespace ParsVerse

/-- Model of the regex word-character class `\w` over this repository's
alphabet: ASCII alphanumerics, underscore, and the non-ASCII letters used
in the source's tables. -/
def isWordChar (c : Char) : Bool :=
  c.isAlphanum || c == '_' ||
    c ∈ ['ṣ', 'Ṣ', 'ā', 'Ā', 'š', 'Š', 'ç', 'Ç', 'θ', 'ŋ', 'ū', 'Ū', 'ī', 'Ī', 'ō', 'Ō', 'ə']

/-- Case folding used by `re.IGNORECASE`: ASCII lowercase plus the
non-ASCII uppercase letters relevant to the source's patterns. -/
def lowerChar (c : Char) : Char :=
  if 'A' ≤ c && c ≤ 'Z' then Char.ofNat (c.toNat + 32)
  else if c == 'Ṣ' then 'ṣ'
  else if c == 'Ā' then 'ā'
  else if c == 'Š' then 'š'
  else if c == 'Ç' then 'ç'
  else if c == 'Ū' then 'ū'
  else if c == 'Ī' then 'ī'
  else if c == 'Ō' then 'ō'
  else c

/-- Characters matched by the regex class `[ \t]`. -/
def isSTChar (c : Char) : Bool := c == ' ' || c == '\t'

/-- Characters matched by the regex class `\n`. -/
def isNLChar (c : Char) : Bool := c == '\n'

/-- Whitespace for Python `str.strip()` and the regex class `\s`
(ASCII approximation). -/
def isPyWS (c : Char) : Bool :=
  c == ' ' || c == '\t' || c == '\n' || c == '\r' || c == '\x0b' || c == '\x0c'

/-- Close out the word-character accumulator (held reversed) as a token. -/
def flushTok (cur : List Char) : List (List Char) :=
  if cur = [] then [] else [cur.reverse]

/-- Maximal word-character runs of a text, accumulator-style. -/
def tokensAux (cur : List Char) : List Char → List (List Char)
  | [] => flushTok cur
  | c :: rest =>
    if isWordChar c then tokensAux (c :: cur) rest
    else flushTok cur ++ tokensAux [] rest

/-- Maximal word-character runs (`\b`-delimited words) of a text. -/
def tokens (s : List Char) : List (List Char) := tokensAux [] s

/-- Lowercased form of a token, for case-insensitive matching. -/
def lowerTok (t : List Char) : List Char := t.map lowerChar

/-- Emit the accumulated word (held reversed): replaced by `repl` when its
lowercasing is one of the pattern's accepted forms, kept otherwise. -/
def emitTok (pats : List (List Char)) (repl : List Char) (cur : List Char) : List Char :=
  if cur = [] then [] else if lowerTok cur.reverse ∈ pats then repl else cur.reverse

/-- One `re.sub(r"\b(alt)\b", repl, text, re.IGNORECASE)` pass where `alt`
accepts exactly the word forms `pats`: every maximal word run equal
(case-insensitively) to a form is replaced by `repl`. -/
def wordSubAux (pats : List (List Char)) (repl : List Char) (cur : List Char) :
    List Char → List Char
  | [] => emitTok pats repl cur
  | c :: rest =>
    if isWordChar c then wordSubAux pats repl (c :: cur) rest
    else emitTok pats repl cur ++ c :: wordSubAux pats repl [] rest

/-- Whole-word substitution pass (see `wordSubAux`). -/
def wordSub (pats : List (List Char)) (repl : List Char) (s : List Char) : List Char :=
  wordSubAux pats repl [] s

/-- Rewrite every maximal run of `p`-characters with `f` (model of a
`re.sub` whose pattern is a character-class repetition). -/
def collapseAux (p : Char → Bool) (f : List Char → List Char) (run : List Char) :
    List Char → List Char
  | [] => f run.reverse
  | c :: rest =>
    if p c then collapseAux p f (c :: run) rest
    else f run.reverse ++ c :: collapseAux p f [] rest

/-- Rewrite maximal `p`-runs of a text with `f` (see `collapseAux`). -/
def collapseRuns (p : Char → Bool) (f : List Char → List Char) (s : List Char) : List Char :=
  collapseAux p f [] s

/-- Rewrite of `re.sub(r"[ \t]{2,}", " ", ...)` on one maximal run. -/
def stRewrite (r : List Char) : List Char := if 2 ≤ r.length then [' '] else r

/-- Rewrite of `re.sub(r"\n{3,}", "\n\n", ...)` on one maximal run. -/
def nlRewrite (r : List Char) : List Char := if 3 ≤ r.length then ['\n', '\n'] else r

/-- Rewrite of `re.sub(r"\s{2,}", " ", ...)` on one maximal run. -/
def wsRewrite (r : List Char) : List Char := if 2 ≤ r.length then [' '] else r

/-- Remove trailing Python whitespace. -/
def dropTrailingWS (l : List Char) : List Char := (l.reverse.dropWhile isPyWS).reverse

/-- Python `str.strip()` on character lists. -/
def pyStripL (l : List Char) : List Char := dropTrailingWS (l.dropWhile isPyWS)

/-- Python `str.strip()`. -/
def pyStrip (s : String) : String := ⟨pyStripL s.data⟩

/-- `BANNED_MAP` from the source: each entry is the set of word forms the
compiled pattern accepts (the optional-suffix patterns `veda(s)?`,
`brahma(n)?`, `raja(h)?` and `hindu(ism|ist)?` contribute one form per
alternative) together with its replacement string. Order is the source's
insertion order. -/
def BANNED_MAP : List (List String × String) := [
  (["kshatra"], "xšaça (royal authority)"),
  (["kṣatra"], "xšaça (royal authority)"),
  (["dharma"], ""),
  (["karma"], ""),
  (["samsara"], ""),
  (["moksha"], ""),
  (["mantra"], ""),
  (["tantra"], ""),
  (["sutra"], ""),
  (["chakra"], ""),
  (["veda", "vedas"], ""),
  (["vedic"], ""),
  (["atman"], ""),
  (["ātman"], ""),
  (["brahma", "brahman"], ""),
  (["brahmin"], ""),
  (["indra"], ""),
  (["shiva"], ""),
  (["vishnu"], ""),
  (["ganesha"], ""),
  (["lakshmi"], ""),
  (["purusha"], ""),
  (["yuga"], ""),
  (["raja", "rajah"], ""),
  (["hindu", "hinduism", "hinduist"], "")]

/-- `BANNED_COMPILED`: the banned table over character lists. -/
def BANNED_L : List (List (List Char) × List Char) :=
  BANNED_MAP.map (fun pr => (pr.1.map String.data, pr.2.data))

/-- Apply a list of whole-word substitution passes in order. -/
def applyPasses (passes : List (List (List Char) × List Char)) (s : List Char) : List Char :=
  passes.foldl (fun acc pr => wordSub pr.1 pr.2 acc) s

/-- The whitespace-normalization tail of `sanitize_non_iranian`:
collapse `[ \t]{2,}` to one space, `\n{3,}` to two newlines, then strip. -/
def wsPhaseL (l : List Char) : List Char :=
  pyStripL (collapseRuns isNLChar nlRewrite (collapseRuns isSTChar stRewrite l))

/-- `sanitize_non_iranian` on character lists: all banned-pattern passes
in order, then whitespace normalization. -/
def sanitizeL (l : List Char) : List Char := wsPhaseL (applyPasses BANNED_L l)

/-- `sanitize_non_iranian` from the source. -/
def sanitize_non_iranian (s : String) : String := ⟨sanitizeL s.data⟩

/-- Does any form of one compiled pattern match (as a whole word) in the
text, case-insensitively. -/
def matchesWordPat (pats : List (List Char)) (l : List Char) : Bool :=
  (tokens l).any (fun t => pats.contains (lowerTok t))

/-- `contains_banned` from the source: some compiled banned pattern still
matches the text. -/
def containsBannedL (l : List Char) : Bool :=
  BANNED_L.any (fun pr => matchesWordPat pr.1 l)

/-- `contains_banned` from the source. -/
def contains_banned (s : String) : Bool := containsBannedL s.data

/-- `GREEK_TO_PERSIAN_MODERN` from the source (pattern forms lowercased
for the case-insensitive match). -/
def GREEK_TO_PERSIAN_MODERN : List (List String × String) := [
  (["zoroaster"], "Zarathustra"),
  (["mithras"], "Mithra"),
  (["anaitis"], "Anāhitā"),
  (["cyrus"], "Kourosh (Cyrus)"),
  (["darius"], "Dariush (Darius)"),
  (["xerxes"], "Khashayarsha (Xerxes)"),
  (["artaxerxes"], "Ardeshir (Artaxerxes)"),
  (["persepolis"], "Parsa / Takht-e Jamshid (Persepolis)"),
  (["pasargadae"], "Pasargad (Pasargadae)"),
  (["ecbatana"], "Hagmatāna / Hamadan (Ecbatana)"),
  (["hyrcania"], "Gorgan / Varkāna (Hyrcania)"),
  (["susa"], "Shush (Susa)"),
  (["ctesiphon"], "Tisfun (Ctesiphon)")]

/-- `GREEK_TO_PERSIAN_OLD` from the source. -/
def GREEK_TO_PERSIAN_OLD : List (List String × String) := [
  (["zoroaster"], "Zaraθuštra"),
  (["mithras"], "Miθra"),
  (["anaitis"], "Anāhitā"),
  (["cyrus"], "Kūruš"),
  (["darius"], "Dārayavahuš"),
  (["xerxes"], "Xšayāršā"),
  (["artaxerxes"], "Artaxšaçā"),
  (["persepolis"], "Pārsa"),
  (["pasargadae"], "Paθragadā"),
  (["ecbatana"], "Haŋgmatana"),
  (["hyrcania"], "Varkāna"),
  (["susa"], "Ūva"),
  (["ctesiphon"], "Tyspwn / Tīsapōn")]

/-- `TRANSLIT_MODE`: the two accepted transliteration modes (any other
environment value is coerced to `modern` at startup). -/
inductive TMode
  | modern
  | old_persian
deriving DecidableEq

/-- The exonym table selected by the transliteration mode. -/
def greekTable (mode : TMode) : List (List String × String) :=
  match mode with
  | TMode.modern => GREEK_TO_PERSIAN_MODERN
  | TMode.old_persian => GREEK_TO_PERSIAN_OLD

/-- The exonym mapping selected by the transliteration mode, over
character lists. -/
def greekMap (mode : TMode) : List (List (List Char) × List Char) :=
  (greekTable mode).map (fun pr => (pr.1.map String.data, pr.2.data))

/-- `prefer_persian_forms` on character lists: the mode's exonym passes in
order, then `\s{2,} -> " "` and strip. -/
def preferL (mode : TMode) (l : List Char) : List Char :=
  pyStripL (collapseRuns isPyWS wsRewrite (applyPasses (greekMap mode) l))

/-- `prefer_persian_forms` from the source, with the process-wide
`TRANSLIT_MODE` made an explicit parameter. -/
def prefer_persian_forms (mode : TMode) (s : String) : String := ⟨preferL mode s.data⟩

/-- `REGIONS` from the source: the fixed ten-region set. -/
def REGIONS : List String := [
  "Persis", "Media", "Parthia", "Sogdia", "Khwarezm",
  "Mazandaran", "Khorasan", "Zagros Mountains", "Caspian Sea", "Elam"]

/-- Lookup in an association list with a default (Python `dict.get`). -/
def assocGetD {α : Type} (m : List (String × α)) (k : String) (d : α) : α :=
  match m.find? (fun pr => pr.1 == k) with
  | some pr => pr.2
  | none => d

/-- `_normalize_region` from the source (leading underscore dropped):
strip, keep if a known region, else fall back to the default. -/
def normalize_region (region : String) : String :=
  if REGIONS.contains (pyStrip region) then pyStrip region else "Persis"

/-- `REGION_HINTS` from the source. -/
def REGION_HINTS : List (String × String) := [
  ("Persis", "Achaemenid heartland: Pasargad (Pasargadae) and Parsa/Takht-e Jamshid (Persepolis); Kourosh (Cyrus), Dariush (Darius); farrah/farr (xvarənah, divine royal glory)."),
  ("Media", "Median highlands and early Iranian polities prior to Achaemenids; Hagmatāna/Hamadan (Ecbatana)."),
  ("Parthia", "Arsacid/Parthian era; horse archers, steppe-silk road links; Nisa; composite bows; satrapal ties."),
  ("Sogdia", "Eastern Iranian merchants and caravans; Samarkand/Bukhara spheres; vibrant trade and Zoroastrian/Buddhist contacts."),
  ("Khwarezm", "Lower Oxus/Amu Darya region; fortress-cities; water engineering; eastern Iranian culture."),
  ("Mazandaran", "Caspian forests; Gilan/Mazandaran folklore; rugged mountains and sea mists; local dynasts."),
  ("Khorasan", "Eastern marches; rising sun motif; legendary frontiers in the Shahnameh; desert winds and steppe edge."),
  ("Zagros Mountains", "Highland passes, oak forests, pastoralism; old borderlands of Medes and Elam; fortresses."),
  ("Caspian Sea", "Caspian littoral; fishing, reeds and mist; Hyrcanian forests; humid coastal life."),
  ("Elam", "Southwestern Iranian plateau prior to Achaemenids; Elamite heritage; Shush (Susa); brickwork and bull imagery.")]

/-- `REGION_LEXICON` from the source. -/
def REGION_LEXICON : List (String × List String) := [
  ("Persis", ["Parsa", "Pasargad", "Takht-e Jamshid", "farrah/farr (divine glory)",
    "xšaça (royal authority)", "apadana hall", "inscribed cliff relief"]),
  ("Media", ["Hagmatāna", "Hamadan", "Median highlands", "early satrapy",
    "horse-breeding meadows", "mountain citadel", "woven felt cloaks"]),
  ("Parthia", ["Nisa", "cataphract cavalry", "steppe frontier", "satrap",
    "composite bow", "heavy lamellar armor", "royal caravanserai"]),
  ("Sogdia", ["Samarkand", "Bukhara", "Silk Road caravan", "merchant seals",
    "Sogdian script", "sandalwood and lapis trade", "bazaar courtyards"]),
  ("Khwarezm", ["Oxus (Amu Darya)", "irrigation canals", "fortress-city walls",
    "kurgan mounds", "mudbrick citadel", "oasis agriculture"]),
  ("Mazandaran", ["Hyrcanian forest", "Caspian mist", "reedboats and fishing",
    "rice terraces", "pomegranate orchards", "leopard folklore"]),
  ("Khorasan", ["eastern frontier", "sunrise motif", "desert wind", "oasis towns",
    "caravan strongholds", "frontier garrisons", "Shahnameh marches"]),
  ("Zagros Mountains", ["high passes", "oak woodlands", "pastoral camps",
    "rock-cut reliefs", "mountain fortresses", "goat-hair tents"]),
  ("Caspian Sea", ["reeds and lagoons", "sturgeon fisheries", "humid coast",
    "Hyrcanian wood", "sea mists", "coastal watchtowers"]),
  ("Elam", ["Shush (Susa)", "glazed brick reliefs", "bull protomes",
    "Elamite scribes", "ziggurat platforms", "canal embankments"])]

/-- `REGION_TO_REALMS` from the source. -/
def REGION_TO_REALMS : List (String × List String) := [
  ("Persis", ["Achaemenid", "Sasanian"]),
  ("Media", ["Median", "Achaemenid (early)"]),
  ("Parthia", ["Parthian (Arsacid)"]),
  ("Sogdia", ["Sogdian city-states"]),
  ("Khwarezm", ["Khwarazmian/Khwarezm"]),
  ("Mazandaran", ["Hyrcanian/Gorgan", "Local dynasts"]),
  ("Khorasan", ["Eastern Iranian frontiers", "Sasanian frontier satrapy"]),
  ("Zagros Mountains", ["Median", "Achaemenid satrapies"]),
  ("Caspian Sea", ["Hyrcanian/Gorgan"]),
  ("Elam", ["Elamite", "Achaemenid-era Shush"])]

/-- `_length_for` from the source: clamp the detail level to 1..3 and take
`min(cap, base + (level-1)*step)`.  Python integers are modelled by `Int`;
the default arguments mirror the source. -/
def length_for (detail_level : Int) (base : Int) (step : Int := 120)
    (cap : Int := 1400) : Int :=
  let d := max 1 (min 3 detail_level)
  min cap (base + (d - 1) * step)

/-- `_strictness_clause` from the source.  Python floats are modelled by
rationals; the thresholds 0.8 and 0.5 are exactly representable. -/
def strictness_clause (strictness : ℚ) : String :=
  let s := max 0 (min 1 strictness)
  if (0.8 : ℚ) ≤ s then
    "Be rigorously historical; avoid legendary exaggerations unless attested in Iranian sources."
  else if (0.5 : ℚ) ≤ s then
    "Be historically grounded; keep metaphors restrained and accurate to Iranian tradition."
  else
    "You may be mildly poetic, but keep references culturally Iranian and plausible."

/-- All word forms accepted by a list of substitution passes. -/
def passForms (passes : List (List (List Char) × List Char)) : List (List Char) :=
  (passes.map (fun pr => pr.1)).flatten

/-- No maximal `p`-run of length at least `k` occurs, scanning with a
counter for the current run. -/
def runsOKAux (p : Char → Bool) (k : Nat) (cnt : Nat) : List Char → Bool
  | [] => decide (cnt < k)
  | c :: rest =>
    if p c then runsOKAux p k (cnt + 1) rest
    else decide (cnt < k) && runsOKAux p k 0 rest

/-- No maximal `p`-run of length at least `k` occurs in the text. -/
def runsOK (p : Char → Bool) (k : Nat) (s : List Char) : Bool := runsOKAux p k 0 s

/-- Does any exonym pattern of the mode's mapping match the text (the
"no exonym pattern match" hypothesis of C10, built from the source's
mapping tables exactly as `contains_banned` is built from the banned
table). -/
def matchesAnyExonym (mode : TMode) (s : String) : Bool :=
  (greekMap mode).any (fun pr => matchesWordPat pr.1 s.data)

/-- `FORBIDDEN_LINE` from the source. -/
def FORBIDDEN_LINE : String :=
  "Forbidden terms: kshatra/kṣatra, dharma, karma, samsara, moksha, mantra, tantra, sutra, chakra, Veda/Vedic, atman, brahma/brahman/brahmin, Indra, Shiva, Vishnu, Ganesha, Lakshmi, Purusha, yuga, raja/rajah, Hindu/Hinduism."

/-- Python `str.lower()` (same ASCII-plus-table approximation as
`lowerChar`). -/
def pyLower (s : String) : String := ⟨s.data.map lowerChar⟩

/-- ASCII apostrophe, kept out of string literals. -/
def apos : String := ⟨[Char.ofNat 39]⟩

/-- The myth/chronicle transliteration note selected by the mode. -/
def translitNoteStory (mode : TMode) : String :=
  match mode with
  | TMode.modern =>
    "Prefer IRANIAN endonyms; if you include a Greek/Latin exonym, show it once in parentheses."
  | TMode.old_persian =>
    "Use Old Persian/Avestan scholarly forms; avoid Greek/Latin exonyms."

/-- `", ".join(themes or [])` from the source. -/
def themesLine (themes : Option (List String)) : String :=
  String.intercalate ", " (themes.getD [])

/-- `{themes_line if themes_line else "—"}` from the source. -/
def themesOrDash (tl : String) : String := if tl = "" then "—" else tl

/-- The myth prompt f-string (already `.strip()`ed), built from the
normalized region.  Interpolations follow the source line by line. -/
def buildMythPrompt (mode : TMode) (name region style : String) (strictness : ℚ)
    (themes : Option (List String)) : String :=
  pyStrip (
    "\nYou are a cultural historian and storyteller of ancient Iran.\nCompose a "
    ++ pyLower style ++ " mythic vignette about " ++ name ++ ", set in " ++ region
    ++ ". \nMake it personal and vivid, in 7–10 sentences, and include these labeled parts:\n\n[Setting] 1–2 sentences anchoring time/place with region-appropriate details.\n[Role] 1 sentence stating "
    ++ name ++ apos
    ++ "s station (tie to Iranian context).\n[Conflict] 2–3 sentences—an ordeal or trial that fits the region.\n[Turning Point] 1–2 sentences—choice, omen, or counsel.\n[Resolution] 1–2 sentences—how it ends, with Iranian symbols/motifs.\n[Moral] 1 line—concise, culturally fitting.\n\nContext for accuracy: "
    ++ assocGetD REGION_HINTS region ""
    ++ "\nUse a few region-appropriate motifs when relevant: "
    ++ String.intercalate ", " (assocGetD REGION_LEXICON region [])
    ++ "\nOptional themes to weave subtly: " ++ themesOrDash (themesLine themes)
    ++ "\n\nRULES:\n- " ++ translitNoteStory mode
    ++ "\n- " ++ strictness_clause strictness
    ++ "\n- DO NOT use non-Iranian/Indic terms. " ++ FORBIDDEN_LINE
    ++ "\n- Prefer clear modern English; gloss Persian terms once in brackets when first used.\n- Return ONLY the prose with the labeled sections in order; no extra commentary.\n")

/-- The chronicle prompt f-string (already `.strip()`ed), built from the
normalized region. -/
def buildStoryPrompt (mode : TMode) (name region style : String) (strictness : ℚ)
    (themes : Option (List String)) : String :=
  pyStrip (
    "\nYou are a cultural historian and storyteller of ancient Iran.\nWrite a "
    ++ pyLower style ++ " **Epic Chronicle** about " ++ name ++ ", set in " ++ region
    ++ ".\nReturn 12–18 sentences across the labeled sections **exactly** as below:\n\n[Cast] 2–4 short items naming key figures and their role/kinship (e.g., \"Roxana — caravan scribe\").\n[Setting] 2–3 sentences grounding time/place with region details.\n[Inciting Event] 2–3 sentences that set the story in motion.\n[Rising Action] 3–4 sentences with obstacles and travel/ritual/work relevant to "
    ++ region
    ++ ".\n[Climax] 2–3 sentences at the decisive moment; include **one** short line of dialogue in quotes.\n[Aftermath] 2–3 sentences with consequences for the household/community.\n[Closing Line] 1 sentence that lands as a proverb-like reflection.\n\nContext for accuracy: "
    ++ assocGetD REGION_HINTS region ""
    ++ "\nUse a few region-appropriate motifs when relevant: "
    ++ String.intercalate ", " (assocGetD REGION_LEXICON region [])
    ++ "\nOptional themes to weave subtly: " ++ themesOrDash (themesLine themes)
    ++ "\n\nRULES:\n- " ++ translitNoteStory mode
    ++ "\n- " ++ strictness_clause strictness
    ++ "\n- DO NOT use non-Iranian/Indic terms. " ++ FORBIDDEN_LINE
    ++ "\n- Prefer clear modern English; gloss Persian terms once in brackets when first used.\n- Keep section labels **as shown** and in that order. No extra commentary.\n")

/-- The REVISION instruction appended by the myth generator. -/
def MYTH_REVISION : String :=
  "\n\nREVISION: Your previous draft included forbidden Indic terms. Regenerate using ONLY Iranian terminology and keep section labels."

/-- The REVISION instruction appended by the chronicle generator. -/
def STORY_REVISION : String :=
  "\n\nREVISION: Your previous draft included forbidden Indic terms. Regenerate using ONLY Iranian terminology and keep the labeled sections."

/-- Python exceptions surfaced by the modelled functions. -/
inductive PyErr
  | valueError
  | attributeError
deriving DecidableEq

/-- Parsed JSON values (`json.loads` results).  Numbers keep their lexeme:
the pipeline only ever stringifies them, and on plain integers the lexeme
is the Python rendering. -/
inductive JVal
  | jnull
  | jbool (b : Bool)
  | jnum (lex : String)
  | jstr (s : String)
  | jlist (xs : List JVal)
  | jobj (fields : List (String × JVal))

mutual

def jvalBEq : JVal → JVal → Bool
  | JVal.jnull, JVal.jnull => true
  | JVal.jbool a, JVal.jbool b => a == b
  | JVal.jnum a, JVal.jnum b => a == b
  | JVal.jstr a, JVal.jstr b => a == b
  | JVal.jlist xs, JVal.jlist ys => jvalListBEq xs ys
  | JVal.jobj fs, JVal.jobj gs => jvalFieldsBEq fs gs
  | _, _ => false

def jvalListBEq : List JVal → List JVal → Bool
  | [], [] => true
  | x :: xs, y :: ys => jvalBEq x y && jvalListBEq xs ys
  | _, _ => false

def jvalFieldsBEq : List (String × JVal) → List (String × JVal) → Bool
  | [], [] => true
  | (k, v) :: fs, (k', v') :: gs => k == k' && jvalBEq v v' && jvalFieldsBEq fs gs
  | _, _ => false

end

mutual

def jvalBEq_iff : ∀ (a b : JVal), jvalBEq a b = true ↔ a = b
  | JVal.jnull, b => by cases b <;> simp [jvalBEq]
  | JVal.jbool a, b => by cases b <;> simp [jvalBEq]
  | JVal.jnum a, b => by cases b <;> simp [jvalBEq]
  | JVal.jstr a, b => by cases b <;> simp [jvalBEq]
  | JVal.jlist xs, b => by
    cases b <;> simp [jvalBEq]
    exact jvalListBEq_iff xs _
  | JVal.jobj fs, b => by
    cases b <;> simp [jvalBEq]
    exact jvalFieldsBEq_iff fs _

def jvalListBEq_iff : ∀ (xs ys : List JVal), jvalListBEq xs ys = true ↔ xs = ys
  | [], ys => by cases ys <;> simp [jvalListBEq]
  | x :: xs, ys => by
    cases ys with
    | nil => simp [jvalListBEq]
    | cons y ys =>
      simp [jvalListBEq, Bool.and_eq_true_iff, jvalBEq_iff x y, jvalListBEq_iff xs ys]

def jvalFieldsBEq_iff :
    ∀ (fs gs : List (String × JVal)), jvalFieldsBEq fs gs = true ↔ fs = gs
  | [], gs => by cases gs <;> simp [jvalFieldsBEq]
  | (k, v) :: fs, gs => by
    cases gs with
    | nil => simp [jvalFieldsBEq]
    | cons g gs =>
      cases g with
      | mk k' v' =>
        simp [jvalFieldsBEq, Bool.and_eq_true_iff, jvalBEq_iff v v',
          jvalFieldsBEq_iff fs gs]

end

instance : DecidableEq JVal := fun a b => decidable_of_iff _ (jvalBEq_iff a b)

def exceptBEq {ε α : Type} [DecidableEq ε] [DecidableEq α] :
    Except ε α → Except ε α → Bool
  | Except.error e, Except.error f => decide (e = f)
  | Except.ok x, Except.ok y => decide (x = y)
  | _, _ => false

def exceptBEq_iff {ε α : Type} [DecidableEq ε] [DecidableEq α]
    (a b : Except ε α) : exceptBEq a b = true ↔ a = b := by
  cases a <;> cases b <;> simp [exceptBEq]

instance {ε α : Type} [DecidableEq ε] [DecidableEq α] : DecidableEq (Except ε α) :=
  fun a b => decidable_of_iff _ (exceptBEq_iff a b)

/-- JSON scanner whitespace (` \t\n\r`). -/
def isJsonWS (c : Char) : Bool := c == ' ' || c == '\t' || c == '\n' || c == '\r'

/-- Skip JSON whitespace. -/
def skipWS (l : List Char) : List Char := l.dropWhile isJsonWS

/-- Hexadecimal digit value. -/
def hexVal (c : Char) : Option Nat :=
  if '0' ≤ c && c ≤ '9' then some (c.toNat - 48)
  else if 'a' ≤ c && c ≤ 'f' then some (c.toNat - 87)
  else if 'A' ≤ c && c ≤ 'F' then some (c.toNat - 55)
  else none

/-- JSON string body parser (after the opening quote), strict mode:
unescaped control characters are rejected.  `\uXXXX` escapes become the
corresponding character (surrogate halves degrade to NUL — a value-level
approximation irrelevant to success/failure). -/
def parseJString (fuel : Nat) (acc : List Char) (l : List Char) :
    Option (String × List Char) :=
  match fuel with
  | 0 => none
  | fuel + 1 =>
    match l with
    | [] => none
    | c :: rest =>
      if c = '"' then some (⟨acc.reverse⟩, rest)
      else if c = '\\' then
        match rest with
        | [] => none
        | e :: rest2 =>
          if e = '"' then parseJString fuel ('"' :: acc) rest2
          else if e = '\\' then parseJString fuel ('\\' :: acc) rest2
          else if e = '/' then parseJString fuel ('/' :: acc) rest2
          else if e = 'b' then parseJString fuel ('\x08' :: acc) rest2
          else if e = 'f' then parseJString fuel ('\x0c' :: acc) rest2
          else if e = 'n' then parseJString fuel ('\n' :: acc) rest2
          else if e = 'r' then parseJString fuel ('\x0d' :: acc) rest2
          else if e = 't' then parseJString fuel ('\t' :: acc) rest2
          else if e = 'u' then
            match rest2 with
            | h1 :: h2 :: h3 :: h4 :: rest3 =>
              match hexVal h1, hexVal h2, hexVal h3, hexVal h4 with
              | some a, some b, some c2, some d =>
                parseJString fuel (Char.ofNat (((a * 16 + b) * 16 + c2) * 16 + d) :: acc) rest3
              | _, _, _, _ => none
            | _ => none
          else none
      else if c.toNat < 32 then none
      else parseJString fuel (c :: acc) rest

/-- Integer part of a JSON number: `0` or a nonzero digit followed by
digits (leading zeros rejected, as in Python). -/
def parseIntPart (l : List Char) : Option (List Char × List Char) :=
  match l with
  | [] => none
  | c :: rest =>
    if c = '0' then some ([c], rest)
    else if c.isDigit then
      some (c :: rest.takeWhile Char.isDigit, rest.dropWhile Char.isDigit)
    else none

/-- Optional fraction part of a JSON number. -/
def parseFracPart (l : List Char) : Option (List Char × List Char) :=
  match l with
  | [] => some ([], [])
  | c :: rest =>
    if c = '.' then
      if rest.takeWhile Char.isDigit = [] then none
      else some (c :: rest.takeWhile Char.isDigit, rest.dropWhile Char.isDigit)
    else some ([], l)

/-- Optional exponent part of a JSON number. -/
def parseExpPart (l : List Char) : Option (List Char × List Char) :=
  match l with
  | [] => some ([], [])
  | c :: rest =>
    if c = 'e' ∨ c = 'E' then
      match rest with
      | [] => none
      | s :: rest2 =>
        if s = '+' ∨ s = '-' then
          if rest2.takeWhile Char.isDigit = [] then none
          else some (c :: s :: rest2.takeWhile Char.isDigit, rest2.dropWhile Char.isDigit)
        else
          if rest.takeWhile Char.isDigit = [] then none
          else some (c :: rest.takeWhile Char.isDigit, rest.dropWhile Char.isDigit)
    else some ([], l)

/-- JSON number parser (after an optional leading minus sign). -/
def parseJNum (neg : Bool) (l : List Char) : Option (String × List Char) :=
  match parseIntPart l with
  | none => none
  | some (ip, rest) =>
    match parseFracPart rest with
    | none => none
    | some (fp, rest2) =>
      match parseExpPart rest2 with
      | none => none
      | some (ep, rest3) =>
        some (⟨(if neg then ['-'] else []) ++ ip ++ fp ++ ep⟩, rest3)

/-- Literal-prefix test on character lists. -/
def startsWithL : List Char → List Char → Bool
  | [], _ => true
  | _ :: _, [] => false
  | a :: as, b :: bs => a = b && startsWithL as bs

/-- Python-dict get: `None` when absent. -/
def dictGet (d : List (String × JVal)) (k : String) : Option JVal :=
  match d.find? (fun pr => pr.1 == k) with
  | some pr => some pr.2
  | none => none

/-- Python-dict get with default. -/
def dictGetD (d : List (String × JVal)) (k : String) (v₀ : JVal) : JVal :=
  (dictGet d k).getD v₀

/-- Python-dict key-presence test. -/
def dictHas (d : List (String × JVal)) (k : String) : Bool := (dictGet d k).isSome

/-- Python-dict assignment: an existing key keeps its position and takes
the new value; a new key is appended. -/
def dictSet : List (String × JVal) → String → JVal → List (String × JVal)
  | [], k, v => [(k, v)]
  | (k', v') :: rest, k, v =>
    if k' = k then (k', v) :: rest else (k', v') :: dictSet rest k v

mutual

/-- JSON value parser: whitespace, then objects, arrays, strings, numbers
and the literals `null`/`true`/`false`/`NaN`/`Infinity`/`-Infinity`
accepted by `json.loads` defaults.  Fuel-indexed; the callers supply more
fuel than the input length, which every recursive call strictly consumes. -/
def parseJVal : Nat → List Char → Option (JVal × List Char)
  | 0, _ => none
  | fuel + 1, l =>
    match skipWS l with
    | [] => none
    | c :: rest =>
      if c = '\x7b' then
        match skipWS rest with
        | [] => none
        | d :: rest2 =>
          if d = '\x7d' then some (JVal.jobj [], rest2)
          else parseJMembers fuel (d :: rest2) []
      else if c = '[' then
        match skipWS rest with
        | [] => none
        | d :: rest2 =>
          if d = ']' then some (JVal.jlist [], rest2)
          else parseJItems fuel (d :: rest2) []
      else if c = '"' then
        match parseJString (rest.length + 1) [] rest with
        | some (s, rest2) => some (JVal.jstr s, rest2)
        | none => none
      else if c = '-' then
        if startsWithL ("Infinity".data) rest then some (JVal.jnum "-Infinity", rest.drop 8)
        else
          match parseJNum true rest with
          | some (lex, rest2) => some (JVal.jnum lex, rest2)
          | none => none
      else if c.isDigit then
        match parseJNum false (c :: rest) with
        | some (lex, rest2) => some (JVal.jnum lex, rest2)
        | none => none
      else if c = 'n' then
        if startsWithL ("ull".data) rest then some (JVal.jnull, rest.drop 3) else none
      else if c = 't' then
        if startsWithL ("rue".data) rest then some (JVal.jbool true, rest.drop 3) else none
      else if c = 'f' then
        if startsWithL ("alse".data) rest then some (JVal.jbool false, rest.drop 4) else none
      else if c = 'N' then
        if startsWithL ("aN".data) rest then some (JVal.jnum "nan", rest.drop 2) else none
      else if c = 'I' then
        if startsWithL ("nfinity".data) rest then some (JVal.jnum "inf", rest.drop 7) else none
      else none

/-- Array items: a value, then `,` (next item) or `]` (done).  A trailing
comma is rejected because the value parser fails on `]`. -/
def parseJItems : Nat → List Char → List JVal → Option (JVal × List Char)
  | 0, _, _ => none
  | fuel + 1, l, acc =>
    match parseJVal fuel l with
    | none => none
    | some (v, rest) =>
      match skipWS rest with
      | [] => none
      | d :: rest2 =>
        if d = ']' then some (JVal.jlist (v :: acc).reverse, rest2)
        else if d = ',' then parseJItems fuel rest2 (v :: acc)
        else none

/-- Object members: a string key, `:`, a value, then `,` (next member) or
`}` (done).  Duplicate keys: last value wins, first position kept. -/
def parseJMembers : Nat → List Char → List (String × JVal) →
    Option (JVal × List Char)
  | 0, _, _ => none
  | fuel + 1, l, acc =>
    match l with
    | [] => none
    | d :: rest =>
      if d = '"' then
        match parseJString (rest.length + 1) [] rest with
        | none => none
        | some (k, rest2) =>
          match skipWS rest2 with
          | [] => none
          | e :: rest3 =>
            if e = ':' then
              match parseJVal fuel rest3 with
              | none => none
              | some (v, rest4) =>
                match skipWS rest4 with
                | [] => none
                | f :: rest5 =>
                  if f = '\x7d' then some (JVal.jobj (dictSet acc k v), rest5)
                  else if f = ',' then
                    match skipWS rest5 with
                    | [] => none
                    | g :: rest6 => parseJMembers fuel (g :: rest6) (dictSet acc k v)
                  else none
            else none
      else none

end

/-- `json.loads`: parse one value, then require only trailing whitespace
("Extra data" otherwise). -/
def json_loads (s : String) : Option JVal :=
  match parseJVal (s.data.length + 2) s.data with
  | some (v, rest) => if skipWS rest = [] then some v else none
  | none => none

/-- Literal-suffix test on character lists. -/
def endsWithL (suf l : List Char) : Bool := startsWithL suf.reverse l.reverse

/-- `_strip_code_fences` from the source: strip, peel a leading
"```json" then "```" fence (re-stripping each time), then a trailing
"```". -/
def strip_code_fences (s : String) : String :=
  let s1 := pyStrip s
  let s2 := if startsWithL ("```json".data) s1.data then pyStrip ⟨s1.data.drop 7⟩ else s1
  let s3 := if startsWithL ("```".data) s2.data then pyStrip ⟨s2.data.drop 3⟩ else s2
  if endsWithL ("```".data) s3.data then pyStrip ⟨s3.data.take (s3.data.length - 3)⟩ else s3

/-- Index of the first occurrence (Python `str.find`, `None` for -1). -/
def findIdx (c : Char) (l : List Char) : Option Nat := l.findIdx? (fun d => d = c)

/-- Index of the last occurrence (Python `str.rfind`, `None` for -1). -/
def rfindIdx (c : Char) (l : List Char) : Option Nat :=
  match l.reverse.findIdx? (fun d => d = c) with
  | some i => some (l.length - 1 - i)
  | none => none

/-- `_extract_json` from the source (leading underscore dropped): slice
from the first `{` to the last `}` when both exist in that order. -/
def extract_json (s : String) : String :=
  match findIdx '\x7b' s.data, rfindIdx '\x7d' s.data with
  | some i, some e => if i < e then ⟨(s.data.drop i).take (e - i + 1)⟩ else s
  | _, _ => s

/-- Smart-quote normalization (the four sequential `str.replace` calls of
`_coerce_json_text`, fused into one character map). -/
def smartQuoteFix (c : Char) : Char :=
  if c = '“' ∨ c = '”' then '"'
  else if c = '‘' ∨ c = '’' then Char.ofNat 39
  else c

/-- The smart-quote replacement pass of `_coerce_json_text`. -/
def normalize_quotes (s : String) : String := ⟨s.data.map smartQuoteFix⟩

/-- `re.sub(r",\s*([\]}])", r"\1", ...)`: remove a comma standing (up to
whitespace) before a closing bracket or brace; scanning resumes after the
replaced bracket.  Fuel-indexed structural recursion (the callers supply
more fuel than the input length, which every step strictly consumes). -/
def tcSubAux : Nat → List Char → List Char
  | 0, l => l
  | _ + 1, [] => []
  | fuel + 1, c :: rest =>
    if c = ',' then
      match rest.dropWhile isPyWS with
      | b :: rest2 =>
        if b = ']' ∨ b = '\x7d' then b :: tcSubAux fuel rest2
        else c :: tcSubAux fuel rest
      | [] => c :: tcSubAux fuel rest
    else c :: tcSubAux fuel rest

/-- The trailing-comma removal pass. -/
def tcSub (l : List Char) : List Char := tcSubAux (l.length + 1) l

/-- `_coerce_json_text` from the source (leading underscore dropped):
fence stripping, brace slicing, quote normalization, trailing-comma
removal. -/
def coerce_json_text (s : String) : String :=
  ⟨tcSub (normalize_quotes (extract_json (strip_code_fences s))).data⟩

/-- Plain characters for the C6 well-formedness condition: letters,
digits, space, hyphen, period, exclamation and question marks.  They
exclude quotes, backslashes, braces, brackets, commas and smart quotes,
so none of the repair surgeries can touch them. -/
def plainChar (c : Char) : Bool :=
  (97 ≤ c.toNat && c.toNat ≤ 122) || (65 ≤ c.toNat && c.toNat ≤ 90) ||
  (48 ≤ c.toNat && c.toNat ≤ 57) || c.toNat == 32 || c.toNat == 45 ||
  c.toNat == 46 || c.toNat == 33 || c.toNat == 63

/-- Persona JSON values for C6: strings and lists of strings. -/
inductive PV
  | pstr (s : List Char)
  | plist (xs : List (List Char))

/-- A JSON string literal. -/
def quoteL (s : List Char) : List Char := '"' :: s ++ ['"']

/-- Serialized array items, separated by `", "`. -/
def serItems : List (List Char) → List Char
  | [] => []
  | [x] => quoteL x
  | x :: y :: xs => quoteL x ++ ',' :: ' ' :: serItems (y :: xs)

/-- Serialized persona value. -/
def serPV : PV → List Char
  | PV.pstr s => quoteL s
  | PV.plist xs => '[' :: serItems xs ++ [']']

/-- One serialized object member, `"key": value`. -/
def serMember (k : List Char) (v : PV) : List Char :=
  quoteL k ++ ':' :: ' ' :: serPV v

/-- Serialized object members, separated by `", "`. -/
def serMembers : List (List Char × PV) → List Char
  | [] => []
  | [(k, v)] => serMember k v
  | (k, v) :: m :: fs => serMember k v ++ ',' :: ' ' :: serMembers (m :: fs)

/-- The serialized persona object. -/
def serObj (fs : List (List Char × PV)) : List Char :=
  '\x7b' :: serMembers fs ++ ['\x7d']

/-- Well-formedness of a value: all characters plain. -/
def goodPV : PV → Bool
  | PV.pstr s => s.all plainChar
  | PV.plist xs => xs.all (fun x => x.all plainChar)

/-- Well-formedness of an object: all keys and values plain. -/
def goodFields (fs : List (List Char × PV)) : Bool :=
  fs.all (fun pr => pr.1.all plainChar && goodPV pr.2)

/-- Wrapping in a Markdown code fence. -/
def fenceWrapL (l : List Char) : List Char :=
  ("```json\n").data ++ l ++ ("\n```").data

/-- Characters that may occur in a serialized persona object. -/
def tameChar (c : Char) : Bool :=
  plainChar c || c ∈ ['\x7b', '\x7d', '[', ']', '"', ':', ',', ' ']

/-- Does a trailing-comma match start at this position. -/
def tcMatchAt (l : List Char) : Bool :=
  match l with
  | c :: rest =>
    c = ',' &&
      (match rest.dropWhile isPyWS with
       | b :: _ => b = ']' ∨ b = '\x7d'
       | [] => false)
  | [] => false

/-- No trailing-comma match starts anywhere in the text. -/
def tcFree : List Char → Bool
  | [] => true
  | c :: rest => !tcMatchAt (c :: rest) && tcFree rest

/-- Every comma is immediately followed by a space and a double quote
(true of the serializer's output, and enough to rule out trailing-comma
matches). -/
def commaSafe : List Char → Bool
  | [] => true
  | c :: rest =>
    (if c = ',' then
      (match rest with
       | d :: e :: _ => d = ' ' && e = '"'
       | _ => false)
     else true) && commaSafe rest

/-- A concrete well-formed persona object mirroring the C6 example
scenario (a kingdom string and a titles array). -/
def c6Fields : List (List Char × PV) :=
  [(("kingdom").data, PV.pstr (("Median").data)),
   (("titles").data, PV.plist [("a").data, ("b").data])]

/-- The serialized C6 example minus its closing brace: the trailing comma
is injected between the two. -/
def c6Body : List Char := (serObj c6Fields).dropLast

mutual

/-- Python `repr` of a parsed JSON value (string escaping elided — the
claims never exercise it). -/
def pyReprJ : JVal → String
  | JVal.jnull => "None"
  | JVal.jbool true => "True"
  | JVal.jbool false => "False"
  | JVal.jnum lex => lex
  | JVal.jstr s => apos ++ s ++ apos
  | JVal.jlist xs => "[" ++ String.intercalate ", " (pyReprL xs) ++ "]"
  | JVal.jobj fs => "\x7b" ++ String.intercalate ", " (pyReprF fs) ++ "\x7d"

def pyReprL : List JVal → List String
  | [] => []
  | v :: vs => pyReprJ v :: pyReprL vs

def pyReprF : List (String × JVal) → List String
  | [] => []
  | (k, v) :: fs => (apos ++ k ++ apos ++ ": " ++ pyReprJ v) :: pyReprF fs

end

/-- Python `str` of a parsed JSON value: the string itself, otherwise
`repr`. -/
def pyStrJ : JVal → String
  | JVal.jstr s => s
  | v => pyReprJ v

mutual

/-- `json.dumps` with default separators and `ensure_ascii=False`
(string escaping elided — the claims never exercise it). -/
def jdumps : JVal → String
  | JVal.jnull => "null"
  | JVal.jbool true => "true"
  | JVal.jbool false => "false"
  | JVal.jnum lex => lex
  | JVal.jstr s => "\"" ++ s ++ "\""
  | JVal.jlist xs => "[" ++ String.intercalate ", " (jdumpsL xs) ++ "]"
  | JVal.jobj fs => "\x7b" ++ String.intercalate ", " (jdumpsF fs) ++ "\x7d"

def jdumpsL : List JVal → List String
  | [] => []
  | v :: vs => jdumps v :: jdumpsL vs

def jdumpsF : List (String × JVal) → List String
  | [] => []
  | (k, v) :: fs => ("\"" ++ k ++ "\": " ++ jdumps v) :: jdumpsF fs

end

/-- `as_text` from the source: lists joined by spaces, dicts dumped,
`None` empty, everything else `str`. -/
def as_text : JVal → String
  | JVal.jlist xs => String.intercalate " " (xs.map pyStrJ)
  | JVal.jobj fs => jdumps (JVal.jobj fs)
  | JVal.jnull => ""
  | v => pyStrJ v

/-- `list_like_fields` from the source: the seven fields flattened when
they arrive as arrays. -/
def list_like_fields : List String :=
  ["daily_routine", "short_story", "backstory", "friends",
   "appearance", "dwelling", "festival"]

/-- The fourteen scalar fields passed through `clean_str`. -/
def scalar_clean_fields : List String :=
  ["kingdom", "locale", "role", "favorite_food", "hobby", "friends",
   "artifact", "appearance", "dwelling", "daily_routine", "festival",
   "short_story", "backstory", "motto"]

/-- The sixteen canonical persona keys. -/
def persona_keys : List String :=
  ["kingdom", "locale", "role", "favorite_food", "hobby", "friends",
   "titles", "symbols", "artifact", "appearance", "dwelling",
   "daily_routine", "festival", "short_story", "backstory", "motto"]

/-- `"; ".join(str(x) for x in v)` from the source. -/
def joinSemi (xs : List JVal) : String := String.intercalate "; " (xs.map pyStrJ)

/-- One step of the array-flattening loop. -/
def flattenStep (d : List (String × JVal)) (k : String) : List (String × JVal) :=
  match dictGet d k with
  | some (JVal.jlist xs) => dictSet d k (JVal.jstr (joinSemi xs))
  | _ => d

/-- The array-flattening loop over `list_like_fields`. -/
def flattenListLike (d : List (String × JVal)) : List (String × JVal) :=
  list_like_fields.foldl flattenStep d

/-- `clean_str` from the source: scrub then prefer Persian forms. -/
def clean_str (mode : TMode) (s : String) : String :=
  prefer_persian_forms mode (sanitize_non_iranian s)

/-- One step of the scalar-field cleaning loop (`key in data` and
`isinstance(data[key], str)`). -/
def cleanScalarStep (mode : TMode) (d : List (String × JVal)) (k : String) :
    List (String × JVal) :=
  match dictGet d k with
  | some (JVal.jstr s) => dictSet d k (JVal.jstr (clean_str mode s))
  | _ => d

/-- The scalar-field cleaning loop. -/
def cleanScalars (mode : TMode) (d : List (String × JVal)) : List (String × JVal) :=
  scalar_clean_fields.foldl (cleanScalarStep mode) d

/-- One step of the list-field cleaning loop (`titles`, `symbols`). -/
def cleanListStep (mode : TMode) (d : List (String × JVal)) (k : String) :
    List (String × JVal) :=
  match dictGet d k with
  | some (JVal.jlist xs) =>
    dictSet d k (JVal.jlist (xs.map (fun x => JVal.jstr (clean_str mode (pyStrJ x)))))
  | _ => d

/-- The list-field cleaning loop. -/
def cleanLists (mode : TMode) (d : List (String × JVal)) : List (String × JVal) :=
  (["titles", "symbols"]).foldl (cleanListStep mode) d

/-- The post-parse processing shared by both branches of the coercion:
flatten array-valued scalar fields, clean scalar fields, clean list
fields. -/
def postProcess (mode : TMode) (d : List (String × JVal)) : List (String × JVal) :=
  cleanLists mode (cleanScalars mode (flattenListLike d))

/-- The fallback record built when JSON parsing fails: every field empty
except `hobby` (the request's hobby argument) and `backstory` (the raw
model text). -/
def fallbackRecord (hobby raw : String) : List (String × JVal) :=
  [("kingdom", JVal.jstr ""), ("locale", JVal.jstr ""), ("role", JVal.jstr ""),
   ("favorite_food", JVal.jstr ""), ("hobby", JVal.jstr hobby),
   ("friends", JVal.jstr ""), ("titles", JVal.jlist []), ("symbols", JVal.jlist []),
   ("artifact", JVal.jstr ""), ("appearance", JVal.jstr ""),
   ("dwelling", JVal.jstr ""), ("daily_routine", JVal.jstr ""),
   ("festival", JVal.jstr ""), ("short_story", JVal.jstr ""),
   ("backstory", JVal.jstr raw), ("motto", JVal.jstr "")]

/-- The two JSON parse attempts of `generate_parsverse_profile`: first on
the repaired text, then on its brace slice. -/
def parsePersonaText (raw : String) : Option JVal :=
  match json_loads (coerce_json_text raw) with
  | some v => some v
  | none => json_loads (extract_json (coerce_json_text raw))

/-- The coercion step of `generate_parsverse_profile` for one response
`raw` (already stripped): parse (falling back to `fallbackRecord`),
flatten and clean.  A successful parse whose top level is not an object
raises `AttributeError` at the first `data.get` call. -/
def coercePersona (mode : TMode) (hobby raw : String) :
    Except PyErr (List (String × JVal)) :=
  match parsePersonaText raw with
  | none => Except.ok (postProcess mode (fallbackRecord hobby raw))
  | some (JVal.jobj d) => Except.ok (postProcess mode d)
  | some _ => Except.error PyErr.attributeError

/-- The banned-term check concatenation over the sixteen fields, with the
source's `.get` defaults. -/
def personaConcat (d : List (String × JVal)) : String :=
  String.intercalate " "
    [as_text (dictGetD d ("kingdom") (JVal.jstr "")),
     as_text (dictGetD d ("locale") (JVal.jstr "")),
     as_text (dictGetD d ("role") (JVal.jstr "")),
     as_text (dictGetD d ("favorite_food") (JVal.jstr "")),
     as_text (dictGetD d ("hobby") (JVal.jstr "")),
     as_text (dictGetD d ("friends") (JVal.jstr "")),
     as_text (dictGetD d ("titles") (JVal.jlist [])),
     as_text (dictGetD d ("symbols") (JVal.jlist [])),
     as_text (dictGetD d ("artifact") (JVal.jstr "")),
     as_text (dictGetD d ("appearance") (JVal.jstr "")),
     as_text (dictGetD d ("dwelling") (JVal.jstr "")),
     as_text (dictGetD d ("daily_routine") (JVal.jstr "")),
     as_text (dictGetD d ("festival") (JVal.jstr "")),
     as_text (dictGetD d ("short_story") (JVal.jstr "")),
     as_text (dictGetD d ("backstory") (JVal.jstr "")),
     as_text (dictGetD d ("motto") (JVal.jstr ""))]

/-- The profile transliteration note. -/
def translitNoteProfile (mode : TMode) : String :=
  match mode with
  | TMode.modern =>
    "Prefer Iranian endonyms; include Greek/Latin exonym once in parentheses."
  | TMode.old_persian =>
    "Use Old Persian/Avestan scholarly forms; avoid exonyms."

/-- `_build_profile_prompt` from the source (leading underscore dropped).
Normalizes the region itself; `style` is accepted but unused, as in the
source. -/
def build_profile_prompt (mode : TMode) (name region : String) (age : Int)
    (gender : String) (traits : List String) (hobby : String)
    (_style : String) : String :=
  pyStrip (
    "\nYou are a cultural historian and storyteller of ancient Iran. Create a **personal, realistic persona profile** for the user with clear, concrete details.\n\nINPUTS\n- Name: "
    ++ name ++ "\n- Region: " ++ normalize_region region
    ++ "\n- Age: " ++ toString age
    ++ "\n- Gender: " ++ gender
    ++ "\n- Traits: " ++ (if traits = [] then "balanced" else String.intercalate ", " traits)
    ++ "\n- Hobby/Work: " ++ hobby
    ++ "\n\nCONTEXT\n- Region hint: "
    ++ assocGetD REGION_HINTS (normalize_region region) ""
    ++ "\n- Regional lexicon to sprinkle when relevant: "
    ++ String.intercalate ", " (assocGetD REGION_LEXICON (normalize_region region) [])
    ++ "\n- Likely realms to choose from (pick the best fit): "
    ++ String.intercalate ", "
      (assocGetD REGION_TO_REALMS (normalize_region region) ["Iranian polity"])
    ++ ".\n\nTONE & STYLE\n- Speak **to** the user (2nd person) as if describing their life.\n- Prioritize **clarity and realism** over flowery language.\n- "
    ++ translitNoteProfile mode
    ++ "\n- DO NOT use non-Iranian/Indic terms. " ++ FORBIDDEN_LINE
    ++ "\n- Use only Iranian/Persian terminology (Old Persian, Avestan, Middle Persian/Pahlavi, New Persian).\n- If you use a Persian term, gloss it once in brackets (e.g., farrah/farr (divine glory), xšaça (royal authority)).\n\nOUTPUT\nReturn ONLY valid JSON (no extra text, no code fences) with these keys exactly:\n\x7b\n  \"kingdom\": \"Specific Iranian realm (e.g., Achaemenid, Median, Parthian, Sogdian city-states, Sasanian)\",\n  \"locale\": \"City/locale (e.g., Hagmatāna / Hamadan (Ecbatana))\",\n  \"role\": \"Clear role/job title in that kingdom tied to traits/hobby\",\n  \"favorite_food\": \"A plausible dish or staple for that region/era\",\n  \"hobby\": \"A concrete hobby past-time tied to inputs\",\n  \"friends\": \"A short phrase describing your social circle (e.g., caravan merchants, scribes, archers)\",\n  \"titles\": [\"Short epithets or honorifics\"],\n  \"symbols\": [\"2–4 meaningful symbols\"],\n  \"artifact\": \"One signature item you carry/use\",\n  \"appearance\": \"1–3 sentences on attire, notable features, and period-appropriate materials.\",\n  \"dwelling\": \"1–3 sentences describing home/quarters typical for role and region.\",\n  \"daily_routine\": \"3–5 bullet-like sentences describing a normal day.\",\n  \"festival\": \"1–2 sentences on a seasonal rite or local festival they attend.\",\n  \"short_story\": \"4–6 sentences: a small moment from their life, grounded and readable.\",\n  \"backstory\": \"5–8 sentences: who they are, how they fit into the realm, and how traits map to their role.\",\n  \"motto\": \"A short motto that fits the persona\"\n\x7d\n")

/-- The REVISION instruction appended by the persona generator. -/
def PROFILE_REVISION : String :=
  "\n\nREVISION INSTRUCTIONS: Your previous draft included forbidden Indic terms. Regenerate STRICT JSON using ONLY Iranian terminology; strictly obey the forbidden list."

/-- The persona generator's retry loop: coerce each stripped response,
propagate exceptions, return the record when the concatenated fields pass
the banned check, otherwise append the REVISION instruction and retry;
after the attempts, return the last record (`last_data or {...}`). -/
def profileLoopAux (mode : TMode) (hobby : String) (oracle : Nat → String) :
    Nat → Nat → String → Option (List (String × JVal)) →
    Except PyErr (List (String × JVal) × Nat)
  | 0, calls, _, lastData =>
    match lastData with
    | some d => Except.ok (d, calls)
    | none => Except.ok
        ([("backstory",
           JVal.jstr "Generation failed after retries. Please try again."),
          ("short_story", JVal.jstr "")], calls)
  | fuel + 1, calls, prompt, _ =>
    match coercePersona mode hobby (pyStrip (oracle calls)) with
    | Except.error e => Except.error e
    | Except.ok d =>
      if contains_banned (personaConcat d) = false then Except.ok (d, calls + 1)
      else profileLoopAux mode hobby oracle fuel (calls + 1)
        (prompt ++ PROFILE_REVISION) (some d)

/-- `generate_parsverse_profile` from the source, with the transliteration
mode and the collaborator (response by call index) made explicit.  The
result also carries the number of collaborator calls made. -/
def generate_parsverse_profile (mode : TMode) (name region : String) (age : Int)
    (gender : String) (traits : List String) (hobby : String) (style : String)
    (detail_level : Int) (strictness : ℚ) (oracle : Nat → String) :
    Except PyErr (List (String × JVal) × Nat) :=
  if name = "" ∨ region = "" then Except.error PyErr.valueError
  else
    let _max_tokens := length_for detail_level 950 120 1400
    let _strictness := strictness
    profileLoopAux mode hobby oracle 3 0
      (build_profile_prompt mode name region age gender traits hobby style) none

/-- The myth generator's retry loop.  The text-completion collaborator is
an oracle indexed by call number (its `i`-th response); each iteration
strips the response, cleans it with both policy passes, returns the
cleaned text when `contains_banned` fails, and otherwise appends the
REVISION instruction and retries.  Returns (result, number of calls made,
prompt at return time). -/
def mythLoopAux (mode : TMode) (oracle : Nat → String) :
    Nat → Nat → String → String → String × Nat × String
  | 0, calls, prompt, last => (last, calls, prompt)
  | fuel + 1, calls, prompt, _ =>
    if contains_banned
        (prefer_persian_forms mode (sanitize_non_iranian (pyStrip (oracle calls)))) = false
    then (prefer_persian_forms mode (sanitize_non_iranian (pyStrip (oracle calls))),
          calls + 1, prompt)
    else mythLoopAux mode oracle fuel (calls + 1) (prompt ++ MYTH_REVISION)
      (prefer_persian_forms mode (sanitize_non_iranian (pyStrip (oracle calls))))

/-- The chronicle generator's retry loop (identical to the myth loop apart
from the appended REVISION text). -/
def storyLoopAux (mode : TMode) (oracle : Nat → String) :
    Nat → Nat → String → String → String × Nat × String
  | 0, calls, prompt, last => (last, calls, prompt)
  | fuel + 1, calls, prompt, _ =>
    if contains_banned
        (prefer_persian_forms mode (sanitize_non_iranian (pyStrip (oracle calls)))) = false
    then (prefer_persian_forms mode (sanitize_non_iranian (pyStrip (oracle calls))),
          calls + 1, prompt)
    else storyLoopAux mode oracle fuel (calls + 1) (prompt ++ STORY_REVISION)
      (prefer_persian_forms mode (sanitize_non_iranian (pyStrip (oracle calls))))

/-- `generate_parsverse_myth` from the source, with the process-wide
transliteration mode and the text-completion collaborator (response by
call index) made explicit.  `max_tokens` is computed as in the source and
handed to the collaborator, which this model abstracts over. -/
def generate_parsverse_myth (mode : TMode) (name region : String)
    (style : String) (detail_level : Int) (strictness : ℚ)
    (themes : Option (List String)) (oracle : Nat → String) :
    Except PyErr (String × Nat × String) :=
  if name = "" ∨ region = "" then Except.error PyErr.valueError
  else
    let _max_tokens := length_for detail_level 320 180 1200
    Except.ok (mythLoopAux mode oracle 3 0
      (buildMythPrompt mode name (normalize_region region) style strictness themes) "")

/-- `generate_parsverse_story` from the source (same conventions as the
myth generator; chronicle length constants). -/
def generate_parsverse_story (mode : TMode) (name region : String)
    (style : String) (detail_level : Int) (strictness : ℚ)
    (themes : Option (List String)) (oracle : Nat → String) :
    Except PyErr (String × Nat × String) :=
  if name = "" ∨ region = "" then Except.error PyErr.valueError
  else
    let _max_tokens := length_for detail_level 700 300 1800
    Except.ok (storyLoopAux mode oracle 3 0
      (buildStoryPrompt mode name (normalize_region region) style strictness themes) "")

/-- The C1 collaborator: the first response contains the banned word
"karma", the second is clean. -/
def c1Oracle : Nat → String := fun i =>
  if i = 0 then "Roxana felt the karma of the desert wind."
  else "Roxana felt the favor of the desert wind."

/-! Token-level lemmas.  The central fact behind the policy-engine claims:
a whole-word substitution pass only removes or replaces complete tokens,
and the whitespace normalizations never touch word characters, so the
token multiset of a text evolves in a controlled way. -/

theorem flushTok_nil : flushTok [] = [] := rfl

theorem flushTok_ne {cur : List Char} (h : cur ≠ []) : flushTok cur = [cur.reverse] := by
  simp [flushTok, h]

theorem tokensAux_nil (cur : List Char) : tokensAux cur [] = flushTok cur := rfl

theorem tokensAux_cons_word {c : Char} (h : isWordChar c = true) (cur rest : List Char) :
    tokensAux cur (c :: rest) = tokensAux (c :: cur) rest := by
  simp [tokensAux, h]

theorem tokensAux_cons_nonword {c : Char} (h : isWordChar c = false) (cur rest : List Char) :
    tokensAux cur (c :: rest) = flushTok cur ++ tokensAux [] rest := by
  simp [tokensAux, h]

/-- Dropping an all-non-word prefix does not change the tokens when the
accumulator is empty. -/
theorem tokensAux_nonword_front (nw : List Char)
    (hnw : ∀ c ∈ nw, isWordChar c = false) (s : List Char) :
    tokensAux [] (nw ++ s) = tokensAux [] s := by
  induction nw with
  | nil => rfl
  | cons c nw ih =>
    rw [List.cons_append, tokensAux_cons_nonword (hnw c (by simp))]
    rw [flushTok_nil, List.nil_append]
    exact ih (fun d hd => hnw d (by simp [hd]))

/-- An all-non-word text contributes no tokens. -/
theorem tokensAux_nonword_nil (nw : List Char)
    (hnw : ∀ c ∈ nw, isWordChar c = false) : tokensAux [] nw = [] := by
  have h := tokensAux_nonword_front nw hnw []
  rw [List.append_nil] at h
  rw [h, tokensAux_nil, flushTok_nil]

/-- An all-non-word text just flushes the accumulator. -/
theorem tokensAux_nonword_flush (cur nw : List Char)
    (hnw : ∀ c ∈ nw, isWordChar c = false) : tokensAux cur nw = flushTok cur := by
  cases nw with
  | nil => rfl
  | cons c nw =>
    rw [tokensAux_cons_nonword (hnw c (by simp))]
    rw [tokensAux_nonword_nil nw (fun d hd => hnw d (by simp [hd])), List.append_nil]

/-- A nonempty all-non-word prefix flushes the accumulator and restarts. -/
theorem tokensAux_nonword_ne (cur nw s : List Char) (hne : nw ≠ [])
    (hnw : ∀ c ∈ nw, isWordChar c = false) :
    tokensAux cur (nw ++ s) = flushTok cur ++ tokensAux [] s := by
  cases nw with
  | nil => exact absurd rfl hne
  | cons c nw =>
    rw [List.cons_append, tokensAux_cons_nonword (hnw c (by simp))]
    rw [tokensAux_nonword_front nw (fun d hd => hnw d (by simp [hd])) s]

/-- Appending an all-non-word suffix does not change the tokens. -/
theorem tokensAux_append_nonword (s : List Char) (cur nw : List Char)
    (hnw : ∀ c ∈ nw, isWordChar c = false) :
    tokensAux cur (s ++ nw) = tokensAux cur s := by
  induction s generalizing cur with
  | nil =>
    rw [List.nil_append, tokensAux_nil, tokensAux_nonword_flush cur nw hnw]
  | cons c s ih =>
    by_cases hc : isWordChar c
    · rw [List.cons_append, tokensAux_cons_word hc, tokensAux_cons_word hc, ih]
    · rw [List.cons_append, tokensAux_cons_nonword (by simpa using hc),
        tokensAux_cons_nonword (by simpa using hc), ih]

/-- An all-word text accumulates into a single token. -/
theorem tokensAux_allword (w : List Char) (hw : ∀ c ∈ w, isWordChar c = true) :
    ∀ cur, tokensAux cur w = flushTok (w.reverse ++ cur) := by
  induction w with
  | nil => intro cur; rfl
  | cons c w ih =>
    intro cur
    rw [tokensAux_cons_word (hw c (by simp)), ih (fun d hd => hw d (by simp [hd]))]
    congr 1
    rw [List.reverse_cons, List.append_assoc, List.singleton_append]

/-- Splitting tokens at a non-word character. -/
theorem tokensAux_split (a : List Char) {c : Char} (hc : isWordChar c = false)
    (b : List Char) : ∀ cur,
    tokensAux cur (a ++ c :: b) = tokensAux cur (a ++ [c]) ++ tokensAux [] b := by
  induction a with
  | nil =>
    intro cur
    rw [List.nil_append, List.nil_append, tokensAux_cons_nonword hc,
      tokensAux_cons_nonword hc, tokensAux_nil, flushTok_nil, List.append_nil]
  | cons d a ih =>
    intro cur
    by_cases hd : isWordChar d
    · rw [List.cons_append, tokensAux_cons_word hd, List.cons_append,
        tokensAux_cons_word hd, ih]
    · rw [List.cons_append, tokensAux_cons_nonword (by simpa using hd),
        List.cons_append, tokensAux_cons_nonword (by simpa using hd), ih,
        List.append_assoc]

/-- Every token of the output of one whole-word substitution pass is
either a token of the input whose lowercasing is not an accepted form, or
a token of the replacement string. -/
theorem wordSub_tokens (P : List (List Char)) (R : List Char) (s : List Char) :
    ∀ cur, (∀ c ∈ cur, isWordChar c = true) →
    ∀ t ∈ tokensAux [] (wordSubAux P R cur s),
    (t ∈ tokensAux cur s ∧ lowerTok t ∉ P) ∨ t ∈ tokensAux [] R := by
  induction s with
  | nil =>
    intro cur hcur t ht
    rw [wordSubAux] at ht
    unfold emitTok at ht
    by_cases h0 : cur = []
    · simp [h0, tokensAux_nil, flushTok_nil] at ht
    · rw [if_neg h0] at ht
      by_cases hP : lowerTok cur.reverse ∈ P
      · rw [if_pos hP] at ht
        exact Or.inr ht
      · rw [if_neg hP] at ht
        have hw : ∀ c ∈ cur.reverse, isWordChar c = true := by
          intro d hd; exact hcur d (List.mem_reverse.mp hd)
        rw [tokensAux_allword cur.reverse hw [], List.append_nil,
          List.reverse_reverse, flushTok_ne h0, List.mem_singleton] at ht
        subst ht
        refine Or.inl ⟨?_, hP⟩
        rw [tokensAux_nil, flushTok_ne h0, List.mem_singleton]
  | cons c rest ih =>
    intro cur hcur t ht
    by_cases hc : isWordChar c
    · rw [wordSubAux, if_pos hc] at ht
      have hcur' : ∀ d ∈ c :: cur, isWordChar d = true := by
        intro d hd
        rcases List.mem_cons.mp hd with h | h
        · rw [h]; exact hc
        · exact hcur d h
      have hres := ih (c :: cur) hcur' t ht
      rw [tokensAux_cons_word hc]
      exact hres
    · have hc' : isWordChar c = false := by simpa using hc
      have hcnw : ∀ d ∈ [c], isWordChar d = false := by
        intro d hd
        rw [List.mem_singleton] at hd
        rw [hd]
        exact hc'
      rw [wordSubAux, if_neg hc] at ht
      unfold emitTok at ht
      rw [tokensAux_cons_nonword hc']
      by_cases h0 : cur = []
      · rw [if_pos h0, List.nil_append] at ht
        subst h0
        rw [flushTok_nil, List.nil_append]
        rw [tokensAux_cons_nonword hc', flushTok_nil, List.nil_append] at ht
        exact ih [] (by simp) t ht
      · rw [if_neg h0] at ht
        by_cases hP : lowerTok cur.reverse ∈ P
        · rw [if_pos hP] at ht
          rw [tokensAux_split R hc' (wordSubAux P R [] rest) []] at ht
          rcases List.mem_append.mp ht with h1 | h2
          · rw [tokensAux_append_nonword R [] [c] hcnw] at h1
            exact Or.inr h1
          · rcases ih [] (by simp) t h2 with ⟨hm, hp⟩ | hr
            · exact Or.inl ⟨List.mem_append.mpr (Or.inr hm), hp⟩
            · exact Or.inr hr
        · rw [if_neg hP] at ht
          rw [tokensAux_split cur.reverse hc' (wordSubAux P R [] rest) []] at ht
          rcases List.mem_append.mp ht with h1 | h2
          · have hw : ∀ d ∈ cur.reverse, isWordChar d = true := by
              intro d hd
              exact hcur d (List.mem_reverse.mp hd)
            rw [tokensAux_append_nonword cur.reverse [] [c] hcnw,
              tokensAux_allword cur.reverse hw [], List.append_nil,
              List.reverse_reverse, flushTok_ne h0, List.mem_singleton] at h1
            subst h1
            refine Or.inl ⟨?_, hP⟩
            refine List.mem_append.mpr (Or.inl ?_)
            rw [flushTok_ne h0]
            exact List.mem_singleton.mpr rfl
          · rcases ih [] (by simp) t h2 with ⟨hm, hp⟩ | hr
            · exact Or.inl ⟨List.mem_append.mpr (Or.inr hm), hp⟩
            · exact Or.inr hr

theorem passForms_nil : passForms [] = [] := rfl

theorem passForms_cons (pr : List (List Char) × List Char)
    (rest : List (List (List Char) × List Char)) :
    passForms (pr :: rest) = pr.1 ++ passForms rest := by
  simp [passForms]

theorem applyPasses_nil (s : List Char) : applyPasses [] s = s := rfl

theorem applyPasses_cons (pr : List (List Char) × List Char)
    (rest : List (List (List Char) × List Char)) (s : List Char) :
    applyPasses (pr :: rest) s = applyPasses rest (wordSub pr.1 pr.2 s) := rfl

/-- `wordSub_tokens` specialized to an empty accumulator. -/
theorem wordSub_tokens' (P : List (List Char)) (R s t : List Char)
    (ht : t ∈ tokens (wordSub P R s)) :
    (t ∈ tokens s ∧ lowerTok t ∉ P) ∨ t ∈ tokens R :=
  wordSub_tokens P R s [] (by simp) t ht

/-- Folding substitution passes makes the text clean of all the passes'
forms, provided no replacement string contains a banned form. -/
theorem applyPasses_clean (passes : List (List (List Char) × List Char)) :
    ∀ (G : List (List Char)) (s : List Char),
    (∀ t ∈ tokens s, lowerTok t ∉ G) →
    (∀ pr ∈ passes, ∀ t ∈ tokens pr.2, lowerTok t ∉ G ++ passForms passes) →
    ∀ t ∈ tokens (applyPasses passes s), lowerTok t ∉ G ++ passForms passes := by
  induction passes with
  | nil =>
    intro G s hs _ t ht
    rw [passForms_nil, List.append_nil]
    exact hs t ht
  | cons pr rest ih =>
    intro G s hs hR t ht
    rw [applyPasses_cons] at ht
    have hs' : ∀ u ∈ tokens (wordSub pr.1 pr.2 s), lowerTok u ∉ G ++ pr.1 := by
      intro u hu
      rcases wordSub_tokens' pr.1 pr.2 s u hu with ⟨hm, hp⟩ | hr
      · intro hmem
        rcases List.mem_append.mp hmem with h | h
        · exact hs u hm h
        · exact hp h
      · intro hmem
        refine hR pr (by simp) u hr ?_
        rcases List.mem_append.mp hmem with h | h
        · exact List.mem_append.mpr (Or.inl h)
        · refine List.mem_append.mpr (Or.inr ?_)
          rw [passForms_cons]
          exact List.mem_append.mpr (Or.inl h)
    have hR' : ∀ q ∈ rest, ∀ u ∈ tokens q.2, lowerTok u ∉ (G ++ pr.1) ++ passForms rest := by
      intro q hq u hu
      have h := hR q (by simp [hq]) u hu
      rw [passForms_cons] at h
      rw [List.append_assoc]
      exact h
    have h := ih (G ++ pr.1) (wordSub pr.1 pr.2 s) hs' hR' t ht
    rw [List.append_assoc] at h
    rw [passForms_cons]
    exact h

/-- Folding substitution passes preserves cleanliness with respect to any
form set absent from all replacement strings. -/
theorem applyPasses_preserve (passes : List (List (List Char) × List Char)) :
    ∀ (F : List (List Char)) (s : List Char),
    (∀ t ∈ tokens s, lowerTok t ∉ F) →
    (∀ pr ∈ passes, ∀ t ∈ tokens pr.2, lowerTok t ∉ F) →
    ∀ t ∈ tokens (applyPasses passes s), lowerTok t ∉ F := by
  induction passes with
  | nil =>
    intro F s hs _ t ht
    exact hs t ht
  | cons pr rest ih =>
    intro F s hs hR t ht
    rw [applyPasses_cons] at ht
    refine ih F _ ?_ (fun q hq => hR q (by simp [hq])) t ht
    intro u hu
    rcases wordSub_tokens' pr.1 pr.2 s u hu with ⟨hm, _⟩ | hr
    · exact hs u hm
    · exact hR pr (by simp) u hr

/-- Rewriting maximal runs of non-word characters with non-word output
preserves the tokens of a text. -/
theorem collapseAux_tokens (p : Char → Bool) (f : List Char → List Char)
    (hp : ∀ c, p c = true → isWordChar c = false)
    (hf : ∀ r, (∀ c ∈ r, p c = true) → ∀ c ∈ f r, isWordChar c = false)
    (hf0 : f [] = [])
    (hfne : ∀ r, r ≠ [] → (∀ c ∈ r, p c = true) → f r ≠ [])
    (s : List Char) :
    ∀ run cur, (∀ c ∈ run, p c = true) →
    tokensAux cur (collapseAux p f run s) = tokensAux cur (run.reverse ++ s) := by
  induction s with
  | nil =>
    intro run cur hrun
    rw [collapseAux]
    have hrev : ∀ c ∈ run.reverse, p c = true :=
      fun c hcm => hrun c (List.mem_reverse.mp hcm)
    rw [tokensAux_nonword_flush cur _ (hf run.reverse hrev), List.append_nil,
      tokensAux_nonword_flush cur _ (fun c hcm => hp c (hrev c hcm))]
  | cons c rest ih =>
    intro run cur hrun
    by_cases hc : p c
    · rw [collapseAux, if_pos hc]
      have hrun' : ∀ d ∈ c :: run, p d = true := by
        intro d hd
        rcases List.mem_cons.mp hd with h | h
        · rw [h]; exact hc
        · exact hrun d h
      rw [ih (c :: run) cur hrun']
      congr 1
      rw [List.reverse_cons, List.append_assoc, List.singleton_append]
    · rw [collapseAux, if_neg hc]
      by_cases h0 : run = []
      · subst h0
        rw [List.reverse_nil, hf0, List.nil_append, List.nil_append]
        by_cases hcw : isWordChar c
        · rw [tokensAux_cons_word hcw, tokensAux_cons_word hcw, ih [] (c :: cur) (by simp)]
          rw [List.reverse_nil, List.nil_append]
        · have hcw' : isWordChar c = false := by simpa using hcw
          rw [tokensAux_cons_nonword hcw', tokensAux_cons_nonword hcw',
            ih [] [] (by simp)]
          rw [List.reverse_nil, List.nil_append]
      · have hrev : ∀ d ∈ run.reverse, p d = true :=
          fun d hd => hrun d (List.mem_reverse.mp hd)
        have hrevne : run.reverse ≠ [] := by
          intro habs
          exact h0 (by simpa using habs)
        have hfr_nw : ∀ d ∈ f run.reverse, isWordChar d = false := hf run.reverse hrev
        have hrev_nw : ∀ d ∈ run.reverse, isWordChar d = false :=
          fun d hd => hp d (hrev d hd)
        rw [tokensAux_nonword_ne cur _ _ (hfne run.reverse hrevne hrev) hfr_nw,
          tokensAux_nonword_ne cur _ _ hrevne hrev_nw]
        congr 1
        by_cases hcw : isWordChar c
        · rw [tokensAux_cons_word hcw, tokensAux_cons_word hcw, ih [] [c] (by simp)]
          rw [List.reverse_nil, List.nil_append]
        · have hcw' : isWordChar c = false := by simpa using hcw
          rw [tokensAux_cons_nonword hcw', tokensAux_cons_nonword hcw',
            ih [] [] (by simp)]
          rw [List.reverse_nil, List.nil_append]

/-- `collapseAux_tokens` packaged for full texts. -/
theorem collapseRuns_tokens (p : Char → Bool) (f : List Char → List Char)
    (hp : ∀ c, p c = true → isWordChar c = false)
    (hf : ∀ r, (∀ c ∈ r, p c = true) → ∀ c ∈ f r, isWordChar c = false)
    (hf0 : f [] = [])
    (hfne : ∀ r, r ≠ [] → (∀ c ∈ r, p c = true) → f r ≠ [])
    (s : List Char) : tokens (collapseRuns p f s) = tokens s := by
  have h := collapseAux_tokens p f hp hf hf0 hfne s [] [] (by simp)
  rw [List.reverse_nil, List.nil_append] at h
  exact h

theorem st_not_word : ∀ c, isSTChar c = true → isWordChar c = false := by
  intro c h
  simp [isSTChar] at h
  rcases h with h | h <;> rw [h] <;> decide

theorem nl_not_word : ∀ c, isNLChar c = true → isWordChar c = false := by
  intro c h
  simp [isNLChar] at h
  rw [h]
  decide

theorem pyws_not_word : ∀ c, isPyWS c = true → isWordChar c = false := by
  intro c h
  simp [isPyWS] at h
  rcases h with ((((h | h) | h) | h) | h) | h <;> rw [h] <;> decide

theorem stRewrite_class : ∀ r, (∀ c ∈ r, isSTChar c = true) →
    ∀ c ∈ stRewrite r, isSTChar c = true := by
  intro r hr c hc
  unfold stRewrite at hc
  by_cases h : 2 ≤ r.length
  · rw [if_pos h, List.mem_singleton] at hc
    rw [hc]
    decide
  · rw [if_neg h] at hc
    exact hr c hc

theorem stRewrite_ne : ∀ r, r ≠ [] → (∀ c ∈ r, isSTChar c = true) →
    stRewrite r ≠ [] := by
  intro r h0 _
  unfold stRewrite
  by_cases h : 2 ≤ r.length
  · rw [if_pos h]; simp
  · rw [if_neg h]; exact h0

theorem nlRewrite_class : ∀ r, (∀ c ∈ r, isNLChar c = true) →
    ∀ c ∈ nlRewrite r, isNLChar c = true := by
  intro r hr c hc
  unfold nlRewrite at hc
  by_cases h : 3 ≤ r.length
  · rw [if_pos h] at hc
    rcases List.mem_cons.mp hc with h1 | h1
    · rw [h1]; decide
    · rw [List.mem_singleton] at h1; rw [h1]; decide
  · rw [if_neg h] at hc
    exact hr c hc

theorem nlRewrite_ne : ∀ r, r ≠ [] → (∀ c ∈ r, isNLChar c = true) →
    nlRewrite r ≠ [] := by
  intro r h0 _
  unfold nlRewrite
  by_cases h : 3 ≤ r.length
  · rw [if_pos h]; simp
  · rw [if_neg h]; exact h0

theorem wsRewrite_class : ∀ r, (∀ c ∈ r, isPyWS c = true) →
    ∀ c ∈ wsRewrite r, isPyWS c = true := by
  intro r hr c hc
  unfold wsRewrite at hc
  by_cases h : 2 ≤ r.length
  · rw [if_pos h, List.mem_singleton] at hc
    rw [hc]
    decide
  · rw [if_neg h] at hc
    exact hr c hc

theorem wsRewrite_ne : ∀ r, r ≠ [] → (∀ c ∈ r, isPyWS c = true) →
    wsRewrite r ≠ [] := by
  intro r h0 _
  unfold wsRewrite
  by_cases h : 2 ≤ r.length
  · rw [if_pos h]; simp
  · rw [if_neg h]; exact h0

theorem tokens_collapseST (l : List Char) :
    tokens (collapseRuns isSTChar stRewrite l) = tokens l :=
  collapseRuns_tokens isSTChar stRewrite st_not_word
    (fun r hr c hc => st_not_word c (stRewrite_class r hr c hc)) rfl stRewrite_ne l

theorem tokens_collapseNL (l : List Char) :
    tokens (collapseRuns isNLChar nlRewrite l) = tokens l :=
  collapseRuns_tokens isNLChar nlRewrite nl_not_word
    (fun r hr c hc => nl_not_word c (nlRewrite_class r hr c hc)) rfl nlRewrite_ne l

theorem tokens_collapseWS (l : List Char) :
    tokens (collapseRuns isPyWS wsRewrite l) = tokens l :=
  collapseRuns_tokens isPyWS wsRewrite pyws_not_word
    (fun r hr c hc => pyws_not_word c (wsRewrite_class r hr c hc)) rfl wsRewrite_ne l

theorem tokens_dropWhileWS (l : List Char) :
    tokens (l.dropWhile isPyWS) = tokens l := by
  conv_rhs => rw [← List.takeWhile_append_dropWhile (p := isPyWS) (l := l)]
  rw [tokens, tokens, tokensAux_nonword_front]
  intro c hcm
  exact pyws_not_word c (List.mem_takeWhile_imp hcm)

theorem dropTrailingWS_decomp (l : List Char) :
    dropTrailingWS l ++ (l.reverse.takeWhile isPyWS).reverse = l := by
  unfold dropTrailingWS
  rw [← List.reverse_append, List.takeWhile_append_dropWhile, List.reverse_reverse]

theorem tokens_dropTrailingWS (l : List Char) :
    tokens (dropTrailingWS l) = tokens l := by
  conv_rhs => rw [← dropTrailingWS_decomp l]
  rw [tokens, tokens, tokensAux_append_nonword]
  intro c hcm
  exact pyws_not_word c (List.mem_takeWhile_imp (List.mem_reverse.mp hcm))

theorem tokens_pyStripL (l : List Char) : tokens (pyStripL l) = tokens l := by
  unfold pyStripL
  rw [tokens_dropTrailingWS, tokens_dropWhileWS]

theorem tokens_wsPhaseL (l : List Char) : tokens (wsPhaseL l) = tokens l := by
  unfold wsPhaseL
  rw [tokens_pyStripL, tokens_collapseNL, tokens_collapseST]

/-- `contains_banned` is false as soon as no token lowercases to one of
the banned forms. -/
theorem containsBanned_eq_false (l : List Char)
    (h : ∀ t ∈ tokens l, lowerTok t ∉ passForms BANNED_L) :
    containsBannedL l = false := by
  rw [Bool.eq_false_iff]
  intro habs
  rw [containsBannedL, List.any_eq_true] at habs
  obtain ⟨pr, hpr, hmat⟩ := habs
  rw [matchesWordPat, List.any_eq_true] at hmat
  obtain ⟨t, ht, hcon⟩ := hmat
  have hmem : lowerTok t ∈ pr.1 := by simpa using hcon
  exact h t ht (List.mem_flatten.mpr ⟨pr.1, List.mem_map.mpr ⟨pr, hpr, rfl⟩, hmem⟩)

/-- After all banned passes, no token lowercases to a banned form. -/
theorem applyBanned_tokens_clean (l : List Char) :
    ∀ t ∈ tokens (applyPasses BANNED_L l), lowerTok t ∉ passForms BANNED_L := by
  intro t ht
  have hgood : ∀ pr ∈ BANNED_L, ∀ u ∈ tokens pr.2,
      lowerTok u ∉ [] ++ passForms BANNED_L := by decide
  have h := applyPasses_clean BANNED_L [] l (by simp) hgood t ht
  simpa using h

/-- The scrubber output never still matches a banned pattern. -/
theorem sanitizeL_clean (l : List Char) : containsBannedL (sanitizeL l) = false := by
  apply containsBanned_eq_false
  unfold sanitizeL
  intro t ht
  rw [tokens_wsPhaseL] at ht
  exact applyBanned_tokens_clean l t ht

/-- The endonym rewriter keeps scrubbed text free of banned patterns, in
either transliteration mode. -/
theorem preferL_sanitizeL_clean (mode : TMode) (l : List Char) :
    containsBannedL (preferL mode (sanitizeL l)) = false := by
  apply containsBanned_eq_false
  unfold preferL
  intro t ht
  rw [tokens_pyStripL, tokens_collapseWS] at ht
  have hgood : ∀ pr ∈ greekMap mode, ∀ u ∈ tokens pr.2,
      lowerTok u ∉ passForms BANNED_L := by
    cases mode <;> decide
  refine applyPasses_preserve (greekMap mode) (passForms BANNED_L) (sanitizeL l) ?_ hgood t ht
  unfold sanitizeL
  intro u hu
  rw [tokens_wsPhaseL] at hu
  exact applyBanned_tokens_clean l u hu

/-- A substitution pass is the identity on a text none of whose tokens
lowercases to an accepted form. -/
theorem wordSubAux_id (P : List (List Char)) (R : List Char) (s : List Char) :
    ∀ cur, (∀ t ∈ tokensAux cur s, lowerTok t ∉ P) →
    wordSubAux P R cur s = cur.reverse ++ s := by
  induction s with
  | nil =>
    intro cur h
    rw [wordSubAux, List.append_nil]
    unfold emitTok
    by_cases h0 : cur = []
    · rw [if_pos h0, h0, List.reverse_nil]
    · have hmem : cur.reverse ∈ tokensAux cur [] := by
        rw [tokensAux_nil, flushTok_ne h0]
        exact List.mem_singleton.mpr rfl
      rw [if_neg h0, if_neg (h cur.reverse hmem)]
  | cons c rest ih =>
    intro cur h
    by_cases hc : isWordChar c
    · have h' : ∀ t ∈ tokensAux (c :: cur) rest, lowerTok t ∉ P := by
        intro t ht
        refine h t ?_
        rw [tokensAux_cons_word hc]
        exact ht
      rw [wordSubAux, if_pos hc, ih (c :: cur) h', List.reverse_cons,
        List.append_assoc, List.singleton_append]
    · have hc' : isWordChar c = false := by simpa using hc
      have hrest : ∀ t ∈ tokensAux [] rest, lowerTok t ∉ P := by
        intro t ht
        refine h t ?_
        rw [tokensAux_cons_nonword hc']
        exact List.mem_append.mpr (Or.inr ht)
      rw [wordSubAux, if_neg hc]
      unfold emitTok
      rw [ih [] hrest, List.reverse_nil, List.nil_append]
      by_cases h0 : cur = []
      · rw [if_pos h0, h0, List.reverse_nil, List.nil_append]
      · have hmem : cur.reverse ∈ tokensAux cur (c :: rest) := by
          rw [tokensAux_cons_nonword hc', flushTok_ne h0]
          exact List.mem_append.mpr (Or.inl (List.mem_singleton.mpr rfl))
        rw [if_neg h0, if_neg (h cur.reverse hmem)]

/-- `wordSubAux_id` packaged for full texts. -/
theorem wordSub_id (P : List (List Char)) (R : List Char) (s : List Char)
    (h : ∀ t ∈ tokens s, lowerTok t ∉ P) : wordSub P R s = s := by
  have hid := wordSubAux_id P R s [] h
  rw [List.reverse_nil, List.nil_append] at hid
  exact hid

/-- A fold of substitution passes is the identity on a text none of whose
tokens lowercases to any accepted form. -/
theorem applyPasses_id (passes : List (List (List Char) × List Char)) (s : List Char)
    (h : ∀ pr ∈ passes, ∀ t ∈ tokens s, lowerTok t ∉ pr.1) :
    applyPasses passes s = s := by
  induction passes with
  | nil => rfl
  | cons pr rest ih =>
    rw [applyPasses_cons, wordSub_id pr.1 pr.2 s (h pr (by simp)),
      ih (fun q hq => h q (by simp [hq]))]

theorem runsOKAux_nil (p : Char → Bool) (k cnt : Nat) :
    runsOKAux p k cnt [] = decide (cnt < k) := rfl

theorem runsOKAux_cons_p {p : Char → Bool} {c : Char} (h : p c = true)
    (k cnt : Nat) (rest : List Char) :
    runsOKAux p k cnt (c :: rest) = runsOKAux p k (cnt + 1) rest := by
  simp [runsOKAux, h]

theorem runsOKAux_cons_np {p : Char → Bool} {c : Char} (h : p c = false)
    (k cnt : Nat) (rest : List Char) :
    runsOKAux p k cnt (c :: rest) = (decide (cnt < k) && runsOKAux p k 0 rest) := by
  simp [runsOKAux, h]

/-- The scan counter is always below the bound on a passing text. -/
theorem runsOKAux_bound {p : Char → Bool} {k : Nat} (s : List Char) :
    ∀ cnt, runsOKAux p k cnt s = true → cnt < k := by
  induction s with
  | nil =>
    intro cnt h
    rw [runsOKAux_nil] at h
    exact of_decide_eq_true h
  | cons c rest ih =>
    intro cnt h
    by_cases hc : p c
    · rw [runsOKAux_cons_p hc] at h
      exact Nat.lt_of_succ_lt (ih (cnt + 1) h)
    · rw [runsOKAux_cons_np (by simpa using hc)] at h
      exact of_decide_eq_true (Bool.and_elim_left h)

/-- The scan is monotone in the counter. -/
theorem runsOKAux_mono {p : Char → Bool} {k : Nat} (s : List Char) :
    ∀ cnt m, m ≤ cnt → runsOKAux p k cnt s = true → runsOKAux p k m s = true := by
  induction s with
  | nil =>
    intro cnt m hle h
    rw [runsOKAux_nil] at h ⊢
    exact decide_eq_true (Nat.lt_of_le_of_lt hle (of_decide_eq_true h))
  | cons c rest ih =>
    intro cnt m hle h
    by_cases hc : p c
    · rw [runsOKAux_cons_p hc] at h ⊢
      exact ih (cnt + 1) (m + 1) (Nat.succ_le_succ hle) h
    · rw [runsOKAux_cons_np (by simpa using hc)] at h ⊢
      refine Bool.and_eq_true_iff.mpr ⟨?_, Bool.and_elim_right h⟩
      exact decide_eq_true
        (Nat.lt_of_le_of_lt hle (of_decide_eq_true (Bool.and_elim_left h)))

/-- Scanning across an all-`p` segment adds its length to the counter. -/
theorem runsOKAux_allp {p : Char → Bool} {k : Nat} (a : List Char)
    (ha : ∀ c ∈ a, p c = true) :
    ∀ rest cnt, runsOKAux p k cnt (a ++ rest) = runsOKAux p k (cnt + a.length) rest := by
  induction a with
  | nil =>
    intro rest cnt
    rw [List.nil_append, List.length_nil, Nat.add_zero]
  | cons c a ih =>
    intro rest cnt
    rw [List.cons_append, runsOKAux_cons_p (ha c (by simp)),
      ih (fun d hd => ha d (by simp [hd])) rest (cnt + 1)]
    congr 1
    rw [List.length_cons]
    omega

/-- Scanning across a nonempty all-non-`p` segment checks the counter and
resets it. -/
theorem runsOKAux_nonp {p : Char → Bool} {k : Nat} (a : List Char) (hne : a ≠ [])
    (ha : ∀ c ∈ a, p c = false) (rest : List Char) (cnt : Nat) :
    runsOKAux p k cnt (a ++ rest) = true ↔
      cnt < k ∧ runsOKAux p k 0 rest = true := by
  induction a generalizing cnt with
  | nil => exact absurd rfl hne
  | cons c a ih =>
    rw [List.cons_append, runsOKAux_cons_np (ha c (by simp)), Bool.and_eq_true_iff,
      decide_eq_true_iff]
    cases a with
    | nil =>
      rw [List.nil_append]
    | cons d a' =>
      rw [ih (by simp) (fun e he => ha e (by simp [he])) 0]
      constructor
      · rintro ⟨h1, _, h3⟩
        exact ⟨h1, h3⟩
      · rintro ⟨h1, h2⟩
        exact ⟨h1, Nat.lt_of_le_of_lt (Nat.zero_le cnt) h1, h2⟩

/-- A run-collapsing pass is the identity when every maximal run is below
the rewrite threshold. -/
theorem collapseAux_id (p : Char → Bool) (f : List Char → List Char) (k : Nat)
    (hsmall : ∀ r, (∀ c ∈ r, p c = true) → r.length < k → f r = r) (s : List Char) :
    ∀ run, (∀ c ∈ run, p c = true) → runsOKAux p k run.length s = true →
    collapseAux p f run s = run.reverse ++ s := by
  induction s with
  | nil =>
    intro run hrun hok
    rw [runsOKAux_nil] at hok
    rw [collapseAux, hsmall run.reverse (fun c hc => hrun c (List.mem_reverse.mp hc))
      (by rw [List.length_reverse]; exact of_decide_eq_true hok), List.append_nil]
  | cons c rest ih =>
    intro run hrun hok
    by_cases hc : p c
    · rw [runsOKAux_cons_p hc] at hok
      have hrun' : ∀ d ∈ c :: run, p d = true := by
        intro d hd
        rcases List.mem_cons.mp hd with h | h
        · rw [h]; exact hc
        · exact hrun d h
      rw [collapseAux, if_pos hc, ih (c :: run) hrun' hok, List.reverse_cons,
        List.append_assoc, List.singleton_append]
    · rw [runsOKAux_cons_np (by simpa using hc)] at hok
      obtain ⟨h1, h2⟩ := Bool.and_eq_true_iff.mp hok
      rw [collapseAux, if_neg hc,
        hsmall run.reverse (fun d hd => hrun d (List.mem_reverse.mp hd))
          (by rw [List.length_reverse]; exact of_decide_eq_true h1),
        ih [] (by simp) h2, List.reverse_nil, List.nil_append]

/-- `collapseAux_id` packaged for full texts. -/
theorem collapseRuns_id (p : Char → Bool) (f : List Char → List Char) (k : Nat)
    (hsmall : ∀ r, (∀ c ∈ r, p c = true) → r.length < k → f r = r) (s : List Char)
    (hok : runsOK p k s = true) : collapseRuns p f s = s := by
  have h := collapseAux_id p f k hsmall s [] (by simp) hok
  rw [List.reverse_nil, List.nil_append] at h
  exact h

/-- A run-collapsing pass always leaves every maximal run below the
threshold. -/
theorem collapseAux_runsOK (p : Char → Bool) (f : List Char → List Char) (k : Nat)
    (hk : 0 < k) (hf0 : f [] = [])
    (hout : ∀ r, r ≠ [] → (∀ c ∈ r, p c = true) →
      (∀ c ∈ f r, p c = true) ∧ (f r).length < k) (s : List Char) :
    ∀ run, (∀ c ∈ run, p c = true) →
    runsOKAux p k 0 (collapseAux p f run s) = true := by
  induction s with
  | nil =>
    intro run hrun
    rw [collapseAux]
    by_cases h0 : run = []
    · subst h0
      rw [List.reverse_nil, hf0, runsOKAux_nil]
      exact decide_eq_true hk
    · have hrev : ∀ c ∈ run.reverse, p c = true :=
        fun c hc => hrun c (List.mem_reverse.mp hc)
      obtain ⟨hall, hlen⟩ := hout run.reverse (fun habs => h0 (by simpa using habs)) hrev
      rw [show f run.reverse = f run.reverse ++ [] from (List.append_nil _).symm,
        runsOKAux_allp (f run.reverse) hall [] 0, runsOKAux_nil]
      exact decide_eq_true (by omega)
  | cons c rest ih =>
    intro run hrun
    by_cases hc : p c
    · have hrun' : ∀ d ∈ c :: run, p d = true := by
        intro d hd
        rcases List.mem_cons.mp hd with h | h
        · rw [h]; exact hc
        · exact hrun d h
      rw [collapseAux, if_pos hc]
      exact ih (c :: run) hrun'
    · have hc' : p c = false := by simpa using hc
      rw [collapseAux, if_neg hc]
      by_cases h0 : run = []
      · subst h0
        rw [List.reverse_nil, hf0, List.nil_append, runsOKAux_cons_np hc']
        exact Bool.and_eq_true_iff.mpr ⟨decide_eq_true hk, ih [] (by simp)⟩
      · have hrev : ∀ d ∈ run.reverse, p d = true :=
          fun d hd => hrun d (List.mem_reverse.mp hd)
        obtain ⟨hall, hlen⟩ := hout run.reverse (fun habs => h0 (by simpa using habs)) hrev
        rw [runsOKAux_allp (f run.reverse) hall (c :: collapseAux p f [] rest) 0,
          Nat.zero_add, runsOKAux_cons_np hc']
        exact Bool.and_eq_true_iff.mpr ⟨decide_eq_true hlen, ih [] (by simp)⟩

/-- Collapsing runs of a class disjoint from `p` preserves the absence of
long `p`-runs. -/
theorem collapseAux_preserves_runsOK (p q : Char → Bool) (g : List Char → List Char)
    (k : Nat) (hdisj : ∀ c, q c = true → p c = false) (hg0 : g [] = [])
    (hgq : ∀ r, (∀ c ∈ r, q c = true) → ∀ c ∈ g r, q c = true)
    (hgne : ∀ r, r ≠ [] → (∀ c ∈ r, q c = true) → g r ≠ []) (s : List Char) :
    ∀ run m, (∀ c ∈ run, q c = true) → m < k →
    runsOKAux p k (if run = [] then m else 0) s = true →
    runsOKAux p k m (collapseAux q g run s) = true := by
  induction s with
  | nil =>
    intro run m hrun hm _
    rw [collapseAux]
    by_cases h0 : run = []
    · subst h0
      rw [List.reverse_nil, hg0, runsOKAux_nil]
      exact decide_eq_true hm
    · have hrev : ∀ c ∈ run.reverse, q c = true :=
        fun c hc => hrun c (List.mem_reverse.mp hc)
      have hgnp : ∀ c ∈ g run.reverse, p c = false :=
        fun c hc => hdisj c (hgq run.reverse hrev c hc)
      rw [show g run.reverse = g run.reverse ++ [] from (List.append_nil _).symm]
      refine (runsOKAux_nonp (g run.reverse)
        (hgne run.reverse (fun habs => h0 (by simpa using habs)) hrev) hgnp [] m).mpr
        ⟨hm, ?_⟩
      rw [runsOKAux_nil]
      exact decide_eq_true (by omega)
  | cons c rest ih =>
    intro run m hrun hm hok
    by_cases hc : q c
    · have hcp : p c = false := hdisj c hc
      have hrun' : ∀ d ∈ c :: run, q d = true := by
        intro d hd
        rcases List.mem_cons.mp hd with h | h
        · rw [h]; exact hc
        · exact hrun d h
      rw [runsOKAux_cons_np hcp] at hok
      rw [collapseAux, if_pos hc]
      refine ih (c :: run) m hrun' hm ?_
      rw [if_neg (by simp)]
      exact Bool.and_elim_right hok
    · rw [collapseAux, if_neg hc]
      by_cases h0 : run = []
      · subst h0
        rw [if_pos rfl] at hok
        rw [List.reverse_nil, hg0, List.nil_append]
        by_cases hcp : p c
        · rw [runsOKAux_cons_p hcp] at hok ⊢
          refine ih [] (m + 1) (by simp) (runsOKAux_bound rest (m + 1) hok) ?_
          rw [if_pos rfl]
          exact hok
        · have hcp' : p c = false := by simpa using hcp
          rw [runsOKAux_cons_np hcp'] at hok ⊢
          refine Bool.and_eq_true_iff.mpr ⟨decide_eq_true hm, ?_⟩
          refine ih [] 0 (by simp) (by omega) ?_
          rw [if_pos rfl]
          exact Bool.and_elim_right hok
      · rw [if_neg h0] at hok
        have hrev : ∀ d ∈ run.reverse, q d = true :=
          fun d hd => hrun d (List.mem_reverse.mp hd)
        have hgnp : ∀ d ∈ g run.reverse, p d = false :=
          fun d hd => hdisj d (hgq run.reverse hrev d hd)
        refine (runsOKAux_nonp (g run.reverse)
          (hgne run.reverse (fun habs => h0 (by simpa using habs)) hrev) hgnp
          (c :: collapseAux q g [] rest) m).mpr ⟨hm, ?_⟩
        by_cases hcp : p c
        · rw [runsOKAux_cons_p hcp] at hok ⊢
          refine ih [] (0 + 1) (by simp) (runsOKAux_bound rest (0 + 1) hok) ?_
          rw [if_pos rfl]
          exact hok
        · have hcp' : p c = false := by simpa using hcp
          rw [runsOKAux_cons_np hcp'] at hok ⊢
          obtain ⟨h1, h2⟩ := Bool.and_eq_true_iff.mp hok
          refine Bool.and_eq_true_iff.mpr ⟨h1, ?_⟩
          refine ih [] 0 (by simp) (of_decide_eq_true h1) ?_
          rw [if_pos rfl]
          exact h2

/-- Dropping a prefix preserves the absence of long runs. -/
theorem runsOKAux_suffix {p : Char → Bool} {k : Nat} (a : List Char) :
    ∀ rest cnt, runsOKAux p k cnt (a ++ rest) = true →
    runsOKAux p k 0 rest = true := by
  induction a with
  | nil =>
    intro rest cnt h
    exact runsOKAux_mono rest cnt 0 (Nat.zero_le cnt) h
  | cons c a ih =>
    intro rest cnt h
    by_cases hc : p c
    · rw [List.cons_append, runsOKAux_cons_p hc] at h
      exact ih rest (cnt + 1) h
    · rw [List.cons_append, runsOKAux_cons_np (by simpa using hc)] at h
      exact ih rest 0 (Bool.and_elim_right h)

/-- Dropping a suffix preserves the absence of long runs. -/
theorem runsOKAux_front {p : Char → Bool} {k : Nat} (s : List Char) :
    ∀ tail cnt, runsOKAux p k cnt (s ++ tail) = true →
    runsOKAux p k cnt s = true := by
  induction s with
  | nil =>
    intro tail cnt h
    rw [runsOKAux_nil]
    exact decide_eq_true (runsOKAux_bound tail cnt h)
  | cons c s ih =>
    intro tail cnt h
    by_cases hc : p c
    · rw [List.cons_append, runsOKAux_cons_p hc] at h
      rw [runsOKAux_cons_p hc]
      exact ih tail (cnt + 1) h
    · have hc' : p c = false := by simpa using hc
      rw [List.cons_append, runsOKAux_cons_np hc'] at h
      rw [runsOKAux_cons_np hc']
      exact Bool.and_eq_true_iff.mpr
        ⟨Bool.and_elim_left h, ih tail 0 (Bool.and_elim_right h)⟩

/-- Stripping preserves the absence of long runs. -/
theorem runsOK_pyStripL {p : Char → Bool} {k : Nat} (l : List Char)
    (h : runsOK p k l = true) : runsOK p k (pyStripL l) = true := by
  unfold pyStripL
  have h1 : runsOK p k (l.dropWhile isPyWS) = true := by
    refine runsOKAux_suffix (l.takeWhile isPyWS) (l.dropWhile isPyWS) 0 ?_
    rw [List.takeWhile_append_dropWhile]
    exact h
  refine runsOKAux_front (dropTrailingWS (l.dropWhile isPyWS))
    ((l.dropWhile isPyWS).reverse.takeWhile isPyWS).reverse 0 ?_
  rw [dropTrailingWS_decomp]
  exact h1

theorem dropWhile_idem (p : Char → Bool) (l : List Char) :
    (l.dropWhile p).dropWhile p = l.dropWhile p := by
  induction l with
  | nil => rfl
  | cons c l ih =>
    rw [List.dropWhile_cons]
    by_cases hc : p c
    · rw [if_pos hc]
      exact ih
    · rw [if_neg hc, List.dropWhile_cons, if_neg hc]

theorem dropWhile_length_le (p : Char → Bool) (l : List Char) :
    (l.dropWhile p).length ≤ l.length := by
  induction l with
  | nil => simp
  | cons c l ih =>
    rw [List.dropWhile_cons]
    by_cases hc : p c
    · rw [if_pos hc]
      exact Nat.le_trans ih (by simp)
    · rw [if_neg hc]

/-- A prefix of a `dropWhile`-fixed list is itself `dropWhile`-fixed. -/
theorem dropWhile_eq_self_of_front (p : Char → Bool) (z w y : List Char)
    (hzy : z ++ w = y) (hy : y.dropWhile p = y) : z.dropWhile p = z := by
  cases z with
  | nil => rfl
  | cons c z' =>
    have hc : ¬ p c = true := by
      intro hc
      subst hzy
      rw [List.cons_append, List.dropWhile_cons, if_pos hc] at hy
      have hlen := congrArg List.length hy
      have hle := dropWhile_length_le p (z' ++ w)
      rw [List.length_cons] at hlen
      omega
    rw [List.dropWhile_cons, if_neg hc]

theorem dropTrailingWS_idem (l : List Char) :
    dropTrailingWS (dropTrailingWS l) = dropTrailingWS l := by
  unfold dropTrailingWS
  rw [List.reverse_reverse, dropWhile_idem]

theorem pyStripL_idem (l : List Char) : pyStripL (pyStripL l) = pyStripL l := by
  unfold pyStripL
  have h1 : (dropTrailingWS (l.dropWhile isPyWS)).dropWhile isPyWS
      = dropTrailingWS (l.dropWhile isPyWS) := by
    refine dropWhile_eq_self_of_front isPyWS _
      ((l.dropWhile isPyWS).reverse.takeWhile isPyWS).reverse (l.dropWhile isPyWS)
      (dropTrailingWS_decomp _) ?_
    exact dropWhile_idem isPyWS l
  rw [h1, dropTrailingWS_idem]

theorem nl_not_st : ∀ c, isNLChar c = true → isSTChar c = false := by
  intro c h
  simp [isNLChar] at h
  rw [h]
  decide

theorem stRewrite_small : ∀ r, (∀ c ∈ r, isSTChar c = true) → r.length < 2 →
    stRewrite r = r := by
  intro r _ hlen
  unfold stRewrite
  rw [if_neg (by omega)]

theorem nlRewrite_small : ∀ r, (∀ c ∈ r, isNLChar c = true) → r.length < 3 →
    nlRewrite r = r := by
  intro r _ hlen
  unfold nlRewrite
  rw [if_neg (by omega)]

theorem stRewrite_out : ∀ r, r ≠ [] → (∀ c ∈ r, isSTChar c = true) →
    (∀ c ∈ stRewrite r, isSTChar c = true) ∧ (stRewrite r).length < 2 := by
  intro r hne hr
  refine ⟨stRewrite_class r hr, ?_⟩
  unfold stRewrite
  by_cases h : 2 ≤ r.length
  · rw [if_pos h]
    simp
  · rw [if_neg h]
    omega

theorem nlRewrite_out : ∀ r, r ≠ [] → (∀ c ∈ r, isNLChar c = true) →
    (∀ c ∈ nlRewrite r, isNLChar c = true) ∧ (nlRewrite r).length < 3 := by
  intro r hne hr
  refine ⟨nlRewrite_class r hr, ?_⟩
  unfold nlRewrite
  by_cases h : 3 ≤ r.length
  · rw [if_pos h]
    simp
  · rw [if_neg h]
    omega

/-- The whitespace-normalization phase of the scrubber is idempotent. -/
theorem wsPhaseL_idem (u : List Char) : wsPhaseL (wsPhaseL u) = wsPhaseL u := by
  unfold wsPhaseL
  have hST_a : runsOK isSTChar 2 (collapseRuns isSTChar stRewrite u) = true :=
    collapseAux_runsOK isSTChar stRewrite 2 (by omega) rfl stRewrite_out u [] (by simp)
  have hNL_b : runsOK isNLChar 3
      (collapseRuns isNLChar nlRewrite (collapseRuns isSTChar stRewrite u)) = true :=
    collapseAux_runsOK isNLChar nlRewrite 3 (by omega) rfl nlRewrite_out _ [] (by simp)
  have hST_b : runsOK isSTChar 2
      (collapseRuns isNLChar nlRewrite (collapseRuns isSTChar stRewrite u)) = true := by
    have h := collapseAux_preserves_runsOK isSTChar isNLChar nlRewrite 2 nl_not_st rfl
      nlRewrite_class nlRewrite_ne (collapseRuns isSTChar stRewrite u) [] 0
      (by simp) (by omega) (by rw [if_pos rfl]; exact hST_a)
    exact h
  have hST_y := runsOK_pyStripL _ hST_b
  have hNL_y := runsOK_pyStripL _ hNL_b
  rw [collapseRuns_id isSTChar stRewrite 2 stRewrite_small _ hST_y,
    collapseRuns_id isNLChar nlRewrite 3 nlRewrite_small _ hNL_y,
    pyStripL_idem]

/-- The scrubber on character lists is idempotent. -/
theorem sanitizeL_idem (l : List Char) : sanitizeL (sanitizeL l) = sanitizeL l := by
  unfold sanitizeL
  rw [applyPasses_id BANNED_L (wsPhaseL (applyPasses BANNED_L l)) ?hcl]
  · exact wsPhaseL_idem _
  case hcl =>
    intro pr hpr t ht hmem
    rw [tokens_wsPhaseL] at ht
    exact applyBanned_tokens_clean l t ht
      (List.mem_flatten.mpr ⟨pr.1, List.mem_map.mpr ⟨pr, hpr, rfl⟩, hmem⟩)

/-- When no pattern of a pass list matches, no token lowercases to any of
its accepted forms. -/
theorem anyPat_false_elim (passes : List (List (List Char) × List Char)) (l : List Char)
    (h : passes.any (fun pr => matchesWordPat pr.1 l) = false) :
    ∀ pr ∈ passes, ∀ t ∈ tokens l, lowerTok t ∉ pr.1 := by
  intro pr hpr t ht hmem
  have habs : passes.any (fun pr => matchesWordPat pr.1 l) = true := by
    rw [List.any_eq_true]
    refine ⟨pr, hpr, ?_⟩
    rw [matchesWordPat, List.any_eq_true]
    exact ⟨t, ht, by simpa using hmem⟩
  rw [h] at habs
  exact Bool.false_ne_true habs

theorem string_eq_of_data : ∀ {s t : String}, s.data = t.data → s = t := by
  intro s t h
  cases s with
  | mk a =>
    cases t with
    | mk b => exact congrArg String.mk h

theorem mk_data (l : List Char) : (String.mk l).data = l := rfl

theorem sanitize_data (s : String) :
    (sanitize_non_iranian s).data = sanitizeL s.data := by
  show (String.mk (sanitizeL s.data)).data = sanitizeL s.data
  exact mk_data _

theorem prefer_data (mode : TMode) (s : String) :
    (prefer_persian_forms mode s).data = preferL mode s.data := rfl

/-- C9: banned-term scrubbing is idempotent: re-applying
`sanitize_non_iranian` (substitutions followed by whitespace normalization
and trimming) to its own output produces no further change. -/
theorem C9_sanitize_idempotent (T : String) :
    sanitize_non_iranian (sanitize_non_iranian T) = sanitize_non_iranian T := by
  refine string_eq_of_data ?_
  rw [sanitize_data, sanitize_data]
  exact sanitizeL_idem T.data

/-- C10 counterexample: "a  b" (two spaces) matches no banned pattern and
no exonym pattern, yet neither policy pass returns it unchanged — both
collapse the double space — so the passes are not no-ops on match-free
input as the claim states. -/
theorem C10_counterexample :
    contains_banned ("a  b") = false ∧
    sanitize_non_iranian ("a  b") ≠ ("a  b" : String) ∧
    matchesAnyExonym TMode.modern ("a  b") = false ∧
    prefer_persian_forms TMode.modern ("a  b") ≠ ("a  b" : String) := by decide

/-- C10 (amended): both policy passes are no-ops up to the whitespace
normalization they always perform: on input with no banned-pattern match,
`sanitize_non_iranian` equals its whitespace phase alone; on input with no
exonym-pattern match, `prefer_persian_forms` equals whitespace collapse
plus strip alone (in either mode); and both return the empty string on the
empty string. -/
theorem C10_policy_passes_noop (T : String) (mode : TMode) :
    (contains_banned T = false → sanitize_non_iranian T = ⟨wsPhaseL T.data⟩) ∧
    (matchesAnyExonym mode T = false →
      prefer_persian_forms mode T = ⟨pyStripL (collapseRuns isPyWS wsRewrite T.data)⟩) ∧
    sanitize_non_iranian ("") = ("" : String) ∧
    prefer_persian_forms mode ("") = ("" : String) := by
  refine ⟨?_, ?_, by decide, by cases mode <;> decide⟩
  · intro h
    refine string_eq_of_data ?_
    rw [sanitize_data, mk_data]
    show wsPhaseL (applyPasses BANNED_L T.data) = wsPhaseL T.data
    rw [applyPasses_id BANNED_L T.data (anyPat_false_elim BANNED_L T.data h)]
  · intro h
    refine string_eq_of_data ?_
    rw [prefer_data, mk_data]
    show pyStripL (collapseRuns isPyWS wsRewrite (applyPasses (greekMap mode) T.data))
      = pyStripL (collapseRuns isPyWS wsRewrite T.data)
    rw [applyPasses_id (greekMap mode) T.data (anyPat_false_elim (greekMap mode) T.data h)]

/-- Witness for C10 (amended) at a concrete input. -/
theorem C10_policy_passes_noop_witness :
    contains_banned ("a b") = false ∧
    sanitize_non_iranian ("a b") = ⟨wsPhaseL ("a b" : String).data⟩ :=
  ⟨by decide, (C10_policy_passes_noop ("a b") TMode.modern).1 (by decide)⟩

/-- One successful step of the myth loop. -/
theorem mythLoop_step (mode : TMode) (oracle : Nat → String) (fuel calls : Nat)
    (prompt last : String)
    (h : contains_banned
      (prefer_persian_forms mode (sanitize_non_iranian (pyStrip (oracle calls)))) = false) :
    mythLoopAux mode oracle (fuel + 1) calls prompt last =
      (prefer_persian_forms mode (sanitize_non_iranian (pyStrip (oracle calls))),
       calls + 1, prompt) := by
  rw [mythLoopAux, if_pos h]

/-- One successful step of the chronicle loop. -/
theorem storyLoop_step (mode : TMode) (oracle : Nat → String) (fuel calls : Nat)
    (prompt last : String)
    (h : contains_banned
      (prefer_persian_forms mode (sanitize_non_iranian (pyStrip (oracle calls)))) = false) :
    storyLoopAux mode oracle (fuel + 1) calls prompt last =
      (prefer_persian_forms mode (sanitize_non_iranian (pyStrip (oracle calls))),
       calls + 1, prompt) := by
  rw [storyLoopAux, if_pos h]

/-- The cleaned response always passes the banned check (String level). -/
theorem contains_banned_cleaned (mode : TMode) (T : String) :
    contains_banned (prefer_persian_forms mode (sanitize_non_iranian T)) = false := by
  show containsBannedL (prefer_persian_forms mode (sanitize_non_iranian T)).data = false
  rw [prefer_data, sanitize_data]
  exact preferL_sanitizeL_clean mode T.data

/-- C7: region normalization is a total function onto the fixed ten-region
set, returns members unchanged, and normalizes the non-member "Atlantis"
to the default "Persis". -/
theorem C7_normalize_region_total (R : String) :
    normalize_region R ∈ REGIONS ∧
    (R ∈ REGIONS → normalize_region R = R) ∧
    normalize_region ("Atlantis") = ("Persis" : String) := by
  refine ⟨?_, ?_, by decide⟩
  · by_cases h : REGIONS.contains (pyStrip R)
    · have he : normalize_region R = pyStrip R := by
        unfold normalize_region
        rw [if_pos h]
      rw [he]
      exact List.mem_of_elem_eq_true h
    · have he : normalize_region R = "Persis" := by
        unfold normalize_region
        rw [if_neg h]
      rw [he]
      decide
  · intro hR
    fin_cases hR <;> decide

/-- Witness for C7 at concrete inputs. -/
theorem C7_normalize_region_total_witness :
    normalize_region ("Khorasan") = ("Khorasan" : String) ∧
    normalize_region ("Atlantis") = ("Persis" : String) :=
  ⟨(C7_normalize_region_total ("Khorasan")).2.1 (by decide),
   (C7_normalize_region_total ("Khorasan")).2.2⟩

/-- C8: for the myth (320/180/1200), chronicle (700/300/1800) and persona
(950/120/1400) constants and detail levels in {1,2,3}, the length budget
equals `min cap (base + (level-1)*step)`, is monotone non-decreasing in
the level, and never exceeds the cap. -/
theorem C8_length_for_budget (l l' : Int) (hl : l ∈ ([1, 2, 3] : List Int))
    (hl' : l' ∈ ([1, 2, 3] : List Int)) (hle : l ≤ l') :
    (length_for l 320 180 1200 = min 1200 (320 + (l - 1) * 180) ∧
     length_for l 700 300 1800 = min 1800 (700 + (l - 1) * 300) ∧
     length_for l 950 120 1400 = min 1400 (950 + (l - 1) * 120)) ∧
    (length_for l 320 180 1200 ≤ length_for l' 320 180 1200 ∧
     length_for l 700 300 1800 ≤ length_for l' 700 300 1800 ∧
     length_for l 950 120 1400 ≤ length_for l' 950 120 1400) ∧
    (length_for l 320 180 1200 ≤ 1200 ∧
     length_for l 700 300 1800 ≤ 1800 ∧
     length_for l 950 120 1400 ≤ 1400) := by
  fin_cases hl <;> fin_cases hl' <;> revert hle <;> decide

/-- C2 (amended): for every string and either transliteration mode, the
scrubbed text never still matches a banned pattern — also after the
exonym pass — so the banned-term check passes on the first attempt in the
myth and chronicle generators, whose retry branch is unreachable and which
make exactly one collaborator call and never append the REVISION
instruction (the returned prompt is the initial prompt).  The persona
generator is excluded: its retry branch is reachable because a response
whose `titles` field is a string (not a list) bypasses the per-field
cleaning (see the counterexample). -/
theorem C2_scrub_invariant_single_call (T : String) (mode : TMode)
    (name region style : String) (detail_level : Int) (strictness : ℚ)
    (themes : Option (List String)) (oracle : Nat → String)
    (hname : name ≠ "") (hregion : region ≠ "") :
    contains_banned (sanitize_non_iranian T) = false ∧
    contains_banned (prefer_persian_forms mode (sanitize_non_iranian T)) = false ∧
    generate_parsverse_myth mode name region style detail_level strictness themes oracle
      = Except.ok
        (prefer_persian_forms mode (sanitize_non_iranian (pyStrip (oracle 0))), 1,
         buildMythPrompt mode name (normalize_region region) style strictness themes) ∧
    generate_parsverse_story mode name region style detail_level strictness themes oracle
      = Except.ok
        (prefer_persian_forms mode (sanitize_non_iranian (pyStrip (oracle 0))), 1,
         buildStoryPrompt mode name (normalize_region region) style strictness themes) := by
  refine ⟨?_, contains_banned_cleaned mode T, ?_, ?_⟩
  · show containsBannedL (sanitize_non_iranian T).data = false
    rw [sanitize_data]
    exact sanitizeL_clean T.data
  · unfold generate_parsverse_myth
    rw [if_neg (not_or.mpr ⟨hname, hregion⟩)]
    exact congrArg Except.ok
      (mythLoop_step mode oracle 2 0 _ "" (contains_banned_cleaned mode _))
  · unfold generate_parsverse_story
    rw [if_neg (not_or.mpr ⟨hname, hregion⟩)]
    exact congrArg Except.ok
      (storyLoop_step mode oracle 2 0 _ "" (contains_banned_cleaned mode _))

/-- Witness for C2 (amended) at concrete inputs. -/
theorem C2_scrub_invariant_single_call_witness :
    contains_banned (sanitize_non_iranian ("pure karma")) = false ∧
    generate_parsverse_myth TMode.modern ("Sohrab") ("Media") ("Epic") 2 (0.6) none
        (fun _ => "a tale")
      = Except.ok
        (prefer_persian_forms TMode.modern
          (sanitize_non_iranian (pyStrip ((fun _ : Nat => ("a tale" : String)) 0))), 1,
         buildMythPrompt TMode.modern ("Sohrab") (normalize_region ("Media")) ("Epic")
           (0.6) none) :=
  ⟨(C2_scrub_invariant_single_call ("pure karma") TMode.modern ("Sohrab") ("Media")
      ("Epic") 2 (0.6) none (fun _ => "a tale") (by decide) (by decide)).1,
   (C2_scrub_invariant_single_call ("pure karma") TMode.modern ("Sohrab") ("Media")
      ("Epic") 2 (0.6) none (fun _ => "a tale") (by decide) (by decide)).2.2.1⟩

/-- C1 counterexample: for the Roxana/Khorasan/Mystic request with a first
response containing "karma", the generator returns after exactly ONE
collaborator call with the scrubbed first response, and the prompt it
holds at return time is the initial prompt — no REVISION instruction was
appended and no second call was made, contrary to the claim. -/
theorem C1_counterexample :
    contains_banned (c1Oracle 0) = true ∧
    generate_parsverse_myth TMode.modern ("Roxana") ("Khorasan") ("Mystic") 2 (0.6)
        none c1Oracle
      = Except.ok (("Roxana felt the of the desert wind." : String), 1,
          buildMythPrompt TMode.modern ("Roxana") ("Khorasan") ("Mystic") (0.6) none) := by
  constructor
  · decide
  · unfold generate_parsverse_myth
    rw [if_neg (by decide)]
    refine Eq.trans (congrArg Except.ok
      (mythLoop_step TMode.modern c1Oracle 2 0 _ "" (contains_banned_cleaned _ _))) ?_
    rw [show prefer_persian_forms TMode.modern (sanitize_non_iranian (pyStrip (c1Oracle 0)))
          = ("Roxana felt the of the desert wind." : String) from by decide,
        show normalize_region ("Khorasan") = ("Khorasan" : String) from by decide]

/-- C1 (amended): for the Roxana/Khorasan/Mystic request (detail level 2,
strictness 0.6) with any collaborator whose first response contains a
banned term, `generate_parsverse_myth` scrubs the term during cleaning;
the cleaned first result passes `contains_banned` and is returned after
exactly one collaborator call, with the prompt unchanged (no REVISION
appended) and no second call made. -/
theorem C1_myth_scrubs_first_response (oracle : Nat → String)
    (_hbanned : contains_banned (oracle 0) = true) :
    generate_parsverse_myth TMode.modern ("Roxana") ("Khorasan") ("Mystic") 2 (0.6)
        none oracle
      = Except.ok
        (prefer_persian_forms TMode.modern (sanitize_non_iranian (pyStrip (oracle 0))), 1,
         buildMythPrompt TMode.modern ("Roxana") (normalize_region ("Khorasan"))
           ("Mystic") (0.6) none) := by
  unfold generate_parsverse_myth
  rw [if_neg (by decide)]
  exact congrArg Except.ok
    (mythLoop_step TMode.modern oracle 2 0 _ "" (contains_banned_cleaned _ _))

/-- Witness for C1 (amended) at the concrete collaborator. -/
theorem C1_myth_scrubs_first_response_witness :
    generate_parsverse_myth TMode.modern ("Roxana") ("Khorasan") ("Mystic") 2 (0.6)
        none c1Oracle
      = Except.ok
        (prefer_persian_forms TMode.modern (sanitize_non_iranian (pyStrip (c1Oracle 0))), 1,
         buildMythPrompt TMode.modern ("Roxana") (normalize_region ("Khorasan"))
           ("Mystic") (0.6) none) :=
  C1_myth_scrubs_first_response c1Oracle (by decide)

theorem dictGet_nil (k : String) : dictGet [] k = none := rfl

theorem dictGet_cons (k' : String) (v' : JVal) (rest : List (String × JVal))
    (k : String) :
    dictGet ((k', v') :: rest) k = if k' = k then some v' else dictGet rest k := by
  unfold dictGet
  by_cases h : k' = k
  · rw [if_pos h, List.find?_cons_of_pos _ (by simpa using h)]
  · rw [if_neg h, List.find?_cons_of_neg _ (by simpa using h)]

theorem dictSet_nil (k : String) (v : JVal) : dictSet [] k v = [(k, v)] := rfl

theorem dictSet_cons (k' : String) (v' : JVal) (rest : List (String × JVal))
    (k : String) (v : JVal) :
    dictSet ((k', v') :: rest) k v
      = if k' = k then (k', v) :: rest else (k', v') :: dictSet rest k v := rfl

theorem dictGet_dictSet_self (d : List (String × JVal)) (k : String) (v : JVal) :
    dictGet (dictSet d k v) k = some v := by
  induction d with
  | nil => simp [dictSet_nil, dictGet_cons, dictGet_nil]
  | cons pr rest ih =>
    cases pr with
    | mk k' v' =>
      by_cases h : k' = k
      · rw [dictSet_cons, if_pos h, dictGet_cons, if_pos h]
      · rw [dictSet_cons, if_neg h, dictGet_cons, if_neg h, ih]

theorem dictGet_dictSet_other (d : List (String × JVal)) (k k' : String) (v : JVal)
    (h : k ≠ k') : dictGet (dictSet d k v) k' = dictGet d k' := by
  induction d with
  | nil => simp [dictSet_nil, dictGet_cons, dictGet_nil, h]
  | cons pr rest ih =>
    cases pr with
    | mk k₀ v₀ =>
      by_cases h0 : k₀ = k
      · rw [dictSet_cons, if_pos h0, dictGet_cons, dictGet_cons, h0,
          if_neg h, if_neg h]
      · rw [dictSet_cons, if_neg h0, dictGet_cons, dictGet_cons, ih]

/-- `clean_str` maps the empty string to itself. -/
theorem clean_str_empty (mode : TMode) : clean_str mode ("") = ("" : String) := by
  cases mode <;> decide

/-- The fully processed fallback record: every field empty except the
policy-cleaned hobby argument and raw model text. -/
theorem postProcess_fallback (mode : TMode) (hobby raw : String) :
    postProcess mode (fallbackRecord hobby raw)
      = [("kingdom", JVal.jstr ("")), ("locale", JVal.jstr ("")),
         ("role", JVal.jstr ("")), ("favorite_food", JVal.jstr ("")),
         ("hobby", JVal.jstr (clean_str mode hobby)), ("friends", JVal.jstr ("")),
         ("titles", JVal.jlist []), ("symbols", JVal.jlist []),
         ("artifact", JVal.jstr ("")), ("appearance", JVal.jstr ("")),
         ("dwelling", JVal.jstr ("")), ("daily_routine", JVal.jstr ("")),
         ("festival", JVal.jstr ("")), ("short_story", JVal.jstr ("")),
         ("backstory", JVal.jstr (clean_str mode raw)), ("motto", JVal.jstr (""))] := by
  simp [postProcess, flattenListLike, cleanScalars, cleanLists, list_like_fields,
    scalar_clean_fields, flattenStep, cleanScalarStep, cleanListStep, fallbackRecord,
    dictGet_cons, dictGet_nil, dictSet_cons, dictSet_nil, clean_str_empty]

/-- C2 counterexample: the persona generator makes TWO collaborator calls
(not one) when the first response is `{"titles": "karma"}` — the
string-valued `titles` field bypasses both the scalar and list cleaning
loops, so the banned term survives into the concatenation check and the
REVISION retry branch runs. -/
theorem C2_counterexample :
    generate_parsverse_profile TMode.modern ("Roxana") ("Khorasan") 25 ("female") []
      ("weaving") ("Epic") 2 (0.6)
      (fun i => if i = 0 then "\x7b\"titles\": \"karma\"\x7d" else "\x7b\x7d")
      = Except.ok ([], 2) := by decide

/-- C3 counterexample: the valid-JSON response `{}` is coerced, without
raising, to a record with NO keys at all — in particular `kingdom` is
absent — so the coercion does not guarantee all sixteen canonical keys on
every input. -/
theorem C3_counterexample :
    coercePersona TMode.modern ("") ("\x7b\x7d") = Except.ok [] ∧
    dictHas [] ("kingdom") = false := by decide

/-- C3 (amended): whenever both JSON parse attempts fail, the coercion
step returns, without raising, the processed fallback record, and that
record contains all sixteen canonical keys.  (On a successful object
parse the record keeps only the keys the model supplied; a successful
non-object parse raises an attribute error.) -/
theorem C3_fallback_keys (mode : TMode) (hobby raw : String)
    (h : parsePersonaText raw = none) :
    coercePersona mode hobby raw
      = Except.ok (postProcess mode (fallbackRecord hobby raw)) ∧
    ∀ k ∈ persona_keys, dictHas (postProcess mode (fallbackRecord hobby raw)) k = true := by
  constructor
  · unfold coercePersona
    rw [h]
  · rw [postProcess_fallback]
    intro k hk
    fin_cases hk <;> rfl

/-- Witness for C3 (amended) at a concrete unparseable response. -/
theorem C3_fallback_keys_witness :
    coercePersona TMode.modern ("") ("not json")
      = Except.ok (postProcess TMode.modern (fallbackRecord ("") ("not json"))) ∧
    dictHas (postProcess TMode.modern (fallbackRecord ("") ("not json"))) ("kingdom")
      = true :=
  ⟨(C3_fallback_keys TMode.modern ("") ("not json") (by decide)).1,
   (C3_fallback_keys TMode.modern ("") ("not json") (by decide)).2 ("kingdom") (by decide)⟩

/-- C4 counterexample: on the unparseable response "karma lore" with
request hobby "weaving", the returned record has `hobby == "weaving"`
(not empty — it is the request's hobby argument) and
`backstory == "lore"` (not the raw text — the raw text is passed through
the policy passes, which scrub "karma"), contrary to the claim. -/
theorem C4_counterexample :
    coercePersona TMode.modern ("weaving") ("karma lore")
      = Except.ok [("kingdom", JVal.jstr ("")), ("locale", JVal.jstr ("")),
          ("role", JVal.jstr ("")), ("favorite_food", JVal.jstr ("")),
          ("hobby", JVal.jstr ("weaving")), ("friends", JVal.jstr ("")),
          ("titles", JVal.jlist []), ("symbols", JVal.jlist []),
          ("artifact", JVal.jstr ("")), ("appearance", JVal.jstr ("")),
          ("dwelling", JVal.jstr ("")), ("daily_routine", JVal.jstr ("")),
          ("festival", JVal.jstr ("")), ("short_story", JVal.jstr ("")),
          ("backstory", JVal.jstr ("lore")), ("motto", JVal.jstr (""))] ∧
    ("weaving" : String) ≠ ("") ∧ ("lore" : String) ≠ ("karma lore") := by decide

/-- C4 (amended): whenever both JSON parse attempts fail, the returned
record has every field equal to the empty string (empty list for titles
and symbols) except `hobby`, which is the request's hobby argument passed
through the policy passes, and `backstory`, which is the raw model text
passed through the policy passes (scrub then prefer Persian forms). -/
theorem C4_fallback_record (mode : TMode) (hobby raw : String)
    (h : parsePersonaText raw = none) :
    coercePersona mode hobby raw
      = Except.ok [("kingdom", JVal.jstr ("")), ("locale", JVal.jstr ("")),
          ("role", JVal.jstr ("")), ("favorite_food", JVal.jstr ("")),
          ("hobby", JVal.jstr (clean_str mode hobby)), ("friends", JVal.jstr ("")),
          ("titles", JVal.jlist []), ("symbols", JVal.jlist []),
          ("artifact", JVal.jstr ("")), ("appearance", JVal.jstr ("")),
          ("dwelling", JVal.jstr ("")), ("daily_routine", JVal.jstr ("")),
          ("festival", JVal.jstr ("")), ("short_story", JVal.jstr ("")),
          ("backstory", JVal.jstr (clean_str mode raw)), ("motto", JVal.jstr (""))] := by
  unfold coercePersona
  rw [h]
  rw [show (postProcess mode (fallbackRecord hobby raw) : List (String × JVal))
      = postProcess mode (fallbackRecord hobby raw) from rfl]
  rw [postProcess_fallback]

/-- Witness for C4 (amended) at a concrete unparseable response. -/
theorem C4_fallback_record_witness :
    coercePersona TMode.modern ("weaving") ("plain text")
      = Except.ok [("kingdom", JVal.jstr ("")), ("locale", JVal.jstr ("")),
          ("role", JVal.jstr ("")), ("favorite_food", JVal.jstr ("")),
          ("hobby", JVal.jstr (clean_str TMode.modern ("weaving"))),
          ("friends", JVal.jstr ("")),
          ("titles", JVal.jlist []), ("symbols", JVal.jlist []),
          ("artifact", JVal.jstr ("")), ("appearance", JVal.jstr ("")),
          ("dwelling", JVal.jstr ("")), ("daily_routine", JVal.jstr ("")),
          ("festival", JVal.jstr ("")), ("short_story", JVal.jstr ("")),
          ("backstory", JVal.jstr (clean_str TMode.modern ("plain text"))),
          ("motto", JVal.jstr (""))] :=
  C4_fallback_record TMode.modern ("weaving") ("plain text") (by decide)

/-- C5 counterexample: a `kingdom` value arriving as an array is NOT
flattened — the accepted record still holds the array — because only the
seven `list_like_fields` are flattened, not all fourteen scalar-expected
fields. -/
theorem C5_counterexample :
    coercePersona TMode.modern ("") ("\x7b\"kingdom\": [\"a\",\"b\"]\x7d")
      = Except.ok [("kingdom", JVal.jlist [JVal.jstr ("a"), JVal.jstr ("b")])] := by
  decide

/-- Preservation of unrelated keys by the flattening fold. -/
theorem flattenFold_preserve (ks : List String) (d : List (String × JVal))
    (k : String) (hk : k ∉ ks) :
    dictGet (ks.foldl flattenStep d) k = dictGet d k := by
  induction ks generalizing d with
  | nil => rfl
  | cons k₀ ks ih =>
    rw [List.foldl_cons, ih _ (fun hmem => hk (by simp [hmem]))]
    unfold flattenStep
    have hne : k₀ ≠ k := fun habs => hk (by simp [habs])
    cases hg : dictGet d k₀ with
    | none => rfl
    | some v =>
      cases v with
      | jlist xs => exact dictGet_dictSet_other d k₀ k _ hne
      | jnull => rfl
      | jbool b => rfl
      | jnum lex => rfl
      | jstr s => rfl
      | jobj fs => rfl

/-- C5 (amended): exactly the seven `list_like_fields` (daily_routine,
short_story, backstory, friends, appearance, dwelling, festival) are
flattened when they arrive as arrays — joined with "; " over the
stringified elements — before the record is accepted; and on a successful
object parse the coercion returns the flattened-then-cleaned record. -/
theorem C5_flatten_list_like :
    (∀ (d : List (String × JVal)) (k : String) (xs : List JVal),
      k ∈ list_like_fields → dictGet d k = some (JVal.jlist xs) →
      dictGet (flattenListLike d) k = some (JVal.jstr (joinSemi xs))) ∧
    (∀ (mode : TMode) (hobby raw : String) (d : List (String × JVal)),
      parsePersonaText raw = some (JVal.jobj d) →
      coercePersona mode hobby raw = Except.ok (postProcess mode d)) := by
  constructor
  · have hmain : ∀ (ks : List String), ks.Nodup →
        ∀ (d : List (String × JVal)) (k : String) (xs : List JVal), k ∈ ks →
        dictGet d k = some (JVal.jlist xs) →
        dictGet (ks.foldl flattenStep d) k = some (JVal.jstr (joinSemi xs)) := by
      intro ks hnd
      induction ks with
      | nil =>
        intro d k xs hk
        exact absurd hk (List.not_mem_nil k)
      | cons k₀ ks ih =>
        intro d k xs hk hv
        rcases List.mem_cons.mp hk with heq | hmem
        · subst heq
          rw [List.foldl_cons, flattenFold_preserve ks _ k
            (by simpa using (List.nodup_cons.mp hnd).1)]
          unfold flattenStep
          rw [hv, dictGet_dictSet_self]
        · rw [List.foldl_cons]
          refine ih (List.nodup_cons.mp hnd).2 _ k xs hmem ?_
          unfold flattenStep
          have hne : k₀ ≠ k := by
            intro habs
            subst habs
            exact (List.nodup_cons.mp hnd).1 hmem
          cases hg : dictGet d k₀ with
          | none => exact hv
          | some v =>
            cases v with
            | jlist ys => rw [dictGet_dictSet_other d k₀ k _ hne]; exact hv
            | jnull => exact hv
            | jbool b => exact hv
            | jnum lex => exact hv
            | jstr s => exact hv
            | jobj fs => exact hv
    intro d k xs hk hv
    exact hmain list_like_fields (by decide) d k xs hk hv
  · intro mode hobby raw d h
    unfold coercePersona
    rw [h]

/-- Witness for C5 (amended) at a concrete record and response. -/
theorem C5_flatten_list_like_witness :
    dictGet (flattenListLike
        [("daily_routine", JVal.jlist [JVal.jstr ("wake"), JVal.jstr ("pray")])])
      ("daily_routine")
      = some (JVal.jstr (joinSemi [JVal.jstr ("wake"), JVal.jstr ("pray")])) ∧
    coercePersona TMode.modern ("") ("\x7b\"locale\": \"Shush\"\x7d")
      = Except.ok (postProcess TMode.modern [("locale", JVal.jstr ("Shush"))]) :=
  ⟨C5_flatten_list_like.1 _ ("daily_routine") _ (by decide) (by decide),
   C5_flatten_list_like.2 TMode.modern ("") ("\x7b\"locale\": \"Shush\"\x7d")
     [("locale", JVal.jstr ("Shush"))] (by decide)⟩

/-- C6 counterexample: for the well-formed persona object
`{"motto": "x ,]"}` wrapped in a code fence with a trailing comma
injected before the closing brace, the trailing-comma heuristic also
rewrites the `",]"` INSIDE the string value, so the coerced record's
motto is "x ]" while parsing the object itself yields "x ,]" — the
records are not equal field-for-field. -/
theorem C6_counterexample :
    coercePersona TMode.modern ("") ("```json\n\x7b\"motto\": \"x ,]\",\x7d\n```")
      = Except.ok [("motto", JVal.jstr ("x ]"))] ∧
    json_loads ("\x7b\"motto\": \"x ,]\"\x7d")
      = some (JVal.jobj [("motto", JVal.jstr ("x ,]"))]) := by decide

/-! ### C6: round-trip of the JSON repair pipeline on serialized personas -/

theorem plain_toNat (c : Char) (h : plainChar c = true) :
    32 ≤ c.toNat ∧ c.toNat ≤ 122 ∧ c.toNat ≠ 34 ∧ c.toNat ≠ 92 ∧
    c.toNat ≠ 44 ∧ c.toNat ≠ 91 ∧ c.toNat ≠ 93 ∧ c.toNat ≠ 123 ∧
    c.toNat ≠ 125 ∧ c.toNat ≠ 58 := by
  simp [plainChar] at h
  omega

theorem skipWS_cons_neg (c : Char) (l : List Char) (h : isJsonWS c = false) :
    skipWS (c :: l) = c :: l := by
  unfold skipWS
  rw [List.dropWhile_cons, if_neg (by simp [h])]

theorem skipWS_append_ws (w l : List Char) (hw : ∀ c ∈ w, isJsonWS c = true) :
    skipWS (w ++ l) = skipWS l := by
  induction w with
  | nil => rfl
  | cons c w ih =>
    rw [List.cons_append]
    show (c :: (w ++ l)).dropWhile isJsonWS = skipWS l
    rw [List.dropWhile_cons, if_pos (hw c (by simp))]
    exact ih (fun d hd => hw d (by simp [hd]))

theorem parseJVal_ws_front (w l : List Char) (hw : ∀ c ∈ w, isJsonWS c = true)
    (f : Nat) : parseJVal (f + 1) (w ++ l) = parseJVal (f + 1) l := by
  simp only [parseJVal]
  rw [skipWS_append_ws w l hw]

theorem parseJString_plain (s : List Char) (hs : ∀ c ∈ s, plainChar c = true) :
    ∀ (acc rest : List Char) (fuel : Nat), s.length < fuel →
    parseJString fuel acc (s ++ '"' :: rest) = some (⟨acc.reverse ++ s⟩, rest) := by
  induction s with
  | nil =>
    intro acc rest fuel hf
    cases fuel with
    | zero => omega
    | succ f =>
      simp [parseJString]
  | cons c s ih =>
    intro acc rest fuel hf
    cases fuel with
    | zero => simp at hf
    | succ f =>
      have hc := plain_toNat c (hs c (by simp))
      have h1 : ¬ c = '"' := by
        intro he
        rw [he] at hc
        exact hc.2.2.1 (by decide)
      have h2 : ¬ c = '\\' := by
        intro he
        rw [he] at hc
        exact hc.2.2.2.1 (by decide)
      have h3 : ¬ c.toNat < 32 := by omega
      rw [List.cons_append]
      simp only [parseJString]
      rw [if_neg h1, if_neg h2, if_neg h3,
        ih (fun d hd => hs d (by simp [hd])) (c :: acc) rest f
          (by simp only [List.length_cons] at hf; omega)]
      simp

theorem parseJVal_quoted (s : List Char) (hs : ∀ c ∈ s, plainChar c = true)
    (rest : List Char) (f : Nat) :
    parseJVal (f + 1) (quoteL s ++ rest) = some (JVal.jstr ⟨s⟩, rest) := by
  have hsh : quoteL s ++ rest = '"' :: (s ++ '"' :: rest) := by
    simp [quoteL]
  rw [hsh]
  simp only [parseJVal]
  rw [skipWS_cons_neg '"' _ (by decide)]
  simp only [reduceIte]
  rw [parseJString_plain s hs [] rest ((s ++ '"' :: rest).length + 1)
    (by simp [List.length_append]; omega)]
  simp

theorem serItems_cons_shape (x : List Char) (xs : List (List Char)) :
    ∃ t, serItems (x :: xs) = '"' :: t := by
  cases xs with
  | nil => exact ⟨x ++ ['"'], by simp [serItems, quoteL]⟩
  | cons y ys =>
    exact ⟨x ++ '"' :: ',' :: ' ' :: serItems (y :: ys),
      by simp [serItems, quoteL]⟩

theorem serMembers_cons_shape (p : List Char × PV) (fs : List (List Char × PV)) :
    ∃ t, serMembers (p :: fs) = '"' :: t := by
  obtain ⟨k, v⟩ := p
  cases fs with
  | nil =>
    exact ⟨k ++ '"' :: ':' :: ' ' :: serPV v,
      by simp [serMembers, serMember, quoteL]⟩
  | cons m fs' =>
    exact ⟨k ++ '"' :: ':' :: ' ' :: serPV v ++ ',' :: ' ' :: serMembers (m :: fs'),
      by simp [serMembers, serMember, quoteL]⟩

theorem parseJItems_ser (rest : List Char) :
    ∀ (xs : List (List Char)), xs ≠ [] →
    (∀ x ∈ xs, ∀ c ∈ x, plainChar c = true) →
    ∀ (w : List Char), (∀ c ∈ w, isJsonWS c = true) →
    ∀ (acc : List JVal) (fuel : Nat),
    (w ++ serItems xs ++ ']' :: rest).length < fuel →
    ∃ ys, parseJItems fuel (w ++ serItems xs ++ ']' :: rest) acc
      = some (JVal.jlist ys, rest) := by
  intro xs
  induction xs with
  | nil => intro h; exact absurd rfl h
  | cons x xs ih =>
    intro _ hgood w hw acc fuel hf
    cases fuel with
    | zero => exact absurd hf (Nat.not_lt_zero _)
    | succ f =>
      have hx : ∀ c ∈ x, plainChar c = true := hgood x (by simp)
      cases xs with
      | nil =>
        cases f with
        | zero =>
          exfalso
          simp [serItems, quoteL, List.length_append] at hf
        | succ f' =>
          refine ⟨(JVal.jstr ⟨x⟩ :: acc).reverse, ?_⟩
          simp only [serItems, parseJItems]
          rw [List.append_assoc, parseJVal_ws_front w _ hw f',
            parseJVal_quoted x hx (']' :: rest) f']
          simp [skipWS_cons_neg ']' rest (by decide)]
      | cons y ys =>
        cases f with
        | zero =>
          exfalso
          simp [serItems, quoteL, List.length_append] at hf
        | succ f' =>
          obtain ⟨ys₀, hys⟩ := ih (by simp)
            (fun z hz => hgood z (by simp [hz]))
            [' '] (by intro c hc; simp at hc; subst hc; decide)
            (JVal.jstr ⟨x⟩ :: acc) (f' + 1)
            (by simp [serItems, quoteL, List.length_append] at hf ⊢; omega)
          refine ⟨ys₀, ?_⟩
          simp only [serItems, parseJItems]
          rw [show w ++ (quoteL x ++ ',' :: ' ' :: serItems (y :: ys)) ++ ']' :: rest
              = w ++ (quoteL x ++ (',' :: ' ' :: serItems (y :: ys) ++ ']' :: rest))
              from by simp,
            parseJVal_ws_front w _ hw f', parseJVal_quoted x hx _ f']
          simp only [parseJItems] at hys
          simpa [skipWS_cons_neg ',' _ (by decide)] using hys

theorem parseJVal_serPV (v : PV) (hv : goodPV v = true) (rest : List Char)
    (fuel : Nat) (hf : (serPV v ++ rest).length < fuel) :
    ∃ jv, parseJVal fuel (serPV v ++ rest) = some (jv, rest) := by
  cases v with
  | pstr s =>
    cases fuel with
    | zero => exact absurd hf (Nat.not_lt_zero _)
    | succ f =>
      have hs : ∀ c ∈ s, plainChar c = true := by
        intro c hc
        simp [goodPV] at hv
        exact hv c hc
      exact ⟨JVal.jstr ⟨s⟩, parseJVal_quoted s hs rest f⟩
  | plist xs =>
    cases fuel with
    | zero => exact absurd hf (Nat.not_lt_zero _)
    | succ f =>
      have hsh : serPV (PV.plist xs) ++ rest = '[' :: (serItems xs ++ ']' :: rest) := by
        simp [serPV]
      rw [hsh]
      cases xs with
      | nil =>
        refine ⟨JVal.jlist [], ?_⟩
        simp only [serItems, List.nil_append, parseJVal]
        rw [skipWS_cons_neg '[' _ (by decide)]
        simp [skipWS_cons_neg ']' rest (by decide)]
      | cons y ys =>
        have hys : ∀ x ∈ y :: ys, ∀ c ∈ x, plainChar c = true := by
          simp [goodPV] at hv
          intro x hx c hc
          rcases List.mem_cons.mp hx with h | h
          · subst h
            exact hv.1 c hc
          · exact hv.2 x h c hc
        obtain ⟨t, ht⟩ := serItems_cons_shape y ys
        obtain ⟨zs, hzs⟩ := parseJItems_ser rest (y :: ys) (by simp) hys
          [] (by simp) [] f
          (by rw [hsh] at hf; simp at hf ⊢; omega)
        refine ⟨JVal.jlist zs, ?_⟩
        simp only [parseJVal]
        rw [skipWS_cons_neg '[' _ (by decide)]
        rw [show serItems (y :: ys) ++ ']' :: rest = '"' :: (t ++ ']' :: rest)
          from by rw [ht]; simp]
        simp only [List.nil_append] at hzs
        rw [ht] at hzs
        simp only [List.cons_append] at hzs
        simp [skipWS_cons_neg '"' _ (by decide), hzs]

theorem parseJMembers_ser (rest : List Char) :
    ∀ (fs : List (List Char × PV)), fs ≠ [] → goodFields fs = true →
    ∀ (acc : List (String × JVal)) (fuel : Nat),
    (serMembers fs ++ '\x7d' :: rest).length < fuel →
    ∃ d, parseJMembers fuel (serMembers fs ++ '\x7d' :: rest) acc
      = some (JVal.jobj d, rest) := by
  intro fs
  induction fs with
  | nil => intro h; exact absurd rfl h
  | cons p fs ih =>
    obtain ⟨k, v⟩ := p
    intro _ hgood acc fuel hf
    simp only [goodFields, List.all_cons, Bool.and_eq_true] at hgood
    obtain ⟨⟨hka, hv⟩, hgood'⟩ := hgood
    have hk : ∀ c ∈ k, plainChar c = true := by
      intro c hc
      exact List.all_eq_true.mp hka c hc
    have hm : ∀ X : List Char,
        serMember k v ++ X = '"' :: (k ++ '"' :: ':' :: ' ' :: (serPV v ++ X)) := by
      intro X
      simp [serMember, quoteL]
    cases fuel with
    | zero => exact absurd hf (Nat.not_lt_zero _)
    | succ f =>
      cases f with
      | zero =>
        exfalso
        cases fs <;>
          simp [serMembers, serMember, quoteL, List.length_append] at hf
      | succ f' =>
        cases fs with
        | nil =>
          obtain ⟨jv, hjv⟩ := parseJVal_serPV v hv ('\x7d' :: rest) (f' + 1)
            (by simp [serMembers, serMember, quoteL, List.length_append] at hf ⊢
                omega)
          have hjv' : parseJVal (f' + 1) (' ' :: (serPV v ++ '\x7d' :: rest))
              = some (jv, '\x7d' :: rest) := by
            rw [show (' ' :: (serPV v ++ '\x7d' :: rest))
                = [' '] ++ (serPV v ++ '\x7d' :: rest) from rfl,
              parseJVal_ws_front [' '] _
                (by intro c hc; simp at hc; subst hc; decide) f']
            exact hjv
          refine ⟨dictSet acc ⟨k⟩ jv, ?_⟩
          simp only [serMembers]
          rw [hm ('\x7d' :: rest)]
          simp only [parseJMembers]
          rw [parseJString_plain k hk []
            (':' :: ' ' :: (serPV v ++ '\x7d' :: rest))
            ((k ++ '"' :: ':' :: ' ' :: (serPV v ++ '\x7d' :: rest)).length + 1)
            (by simp [List.length_append]; omega)]
          simp [skipWS_cons_neg ':' _ (by decide), hjv',
            skipWS_cons_neg '\x7d' _ (by decide)]
        | cons m fs' =>
          obtain ⟨jv, hjv⟩ := parseJVal_serPV v hv
            (',' :: ' ' :: (serMembers (m :: fs') ++ '\x7d' :: rest)) (f' + 1)
            (by simp [serMembers, serMember, quoteL, List.length_append] at hf ⊢
                omega)
          have hjv' : parseJVal (f' + 1) (' ' :: (serPV v
                ++ ',' :: ' ' :: (serMembers (m :: fs') ++ '\x7d' :: rest)))
              = some (jv, ',' :: ' ' :: (serMembers (m :: fs') ++ '\x7d' :: rest)) := by
            rw [show (' ' :: (serPV v
                  ++ ',' :: ' ' :: (serMembers (m :: fs') ++ '\x7d' :: rest)))
                = [' '] ++ (serPV v
                  ++ ',' :: ' ' :: (serMembers (m :: fs') ++ '\x7d' :: rest)) from rfl,
              parseJVal_ws_front [' '] _
                (by intro c hc; simp at hc; subst hc; decide) f']
            exact hjv
          obtain ⟨t, ht⟩ := serMembers_cons_shape m fs'
          obtain ⟨d, hd⟩ := ih (by simp) hgood' (dictSet acc ⟨k⟩ jv) (f' + 1)
            (by simp [serMembers, serMember, quoteL, List.length_append] at hf ⊢
                omega)
          have hskip : skipWS (' ' :: (serMembers (m :: fs') ++ '\x7d' :: rest))
              = serMembers (m :: fs') ++ '\x7d' :: rest := by
            rw [show (' ' :: (serMembers (m :: fs') ++ '\x7d' :: rest))
                = [' '] ++ (serMembers (m :: fs') ++ '\x7d' :: rest) from rfl]
            rw [skipWS_append_ws [' '] _
              (by intro c hc; simp at hc; subst hc; decide)]
            rw [ht]
            rw [show ('"' :: t) ++ '\x7d' :: rest = '"' :: (t ++ '\x7d' :: rest)
              from by simp]
            exact skipWS_cons_neg '"' _ (by decide)
          refine ⟨d, ?_⟩
          rw [show serMembers ((k, v) :: m :: fs') ++ '\x7d' :: rest
              = serMember k v
                ++ (',' :: ' ' :: (serMembers (m :: fs') ++ '\x7d' :: rest))
            from by simp [serMembers]]
          rw [hm _]
          simp only [parseJMembers]
          rw [parseJString_plain k hk []
            (':' :: ' ' :: (serPV v
              ++ ',' :: ' ' :: (serMembers (m :: fs') ++ '\x7d' :: rest)))
            ((k ++ '"' :: ':' :: ' ' :: (serPV v
              ++ ',' :: ' ' :: (serMembers (m :: fs') ++ '\x7d' :: rest))).length + 1)
            (by simp [List.length_append]; omega)]
          simp only [parseJMembers] at hd
          simp [skipWS_cons_neg ':' _ (by decide), hjv',
            skipWS_cons_neg ',' _ (by decide), hskip, hd]

theorem json_loads_serObj (fs : List (List Char × PV))
    (hgood : goodFields fs = true) :
    ∃ d, json_loads ⟨serObj fs⟩ = some (JVal.jobj d) := by
  cases fs with
  | nil => exact ⟨[], by decide⟩
  | cons p fs' =>
    obtain ⟨t, ht⟩ := serMembers_cons_shape p fs'
    obtain ⟨d, hd⟩ := parseJMembers_ser [] (p :: fs') (by simp) hgood []
      ((serObj (p :: fs')).length + 1)
      (by simp [serObj, List.length_append])
    refine ⟨d, ?_⟩
    have hobj : serObj (p :: fs') = '\x7b' :: (serMembers (p :: fs') ++ ['\x7d']) := by
      simp [serObj]
    have hu : serMembers (p :: fs') ++ ['\x7d'] = '"' :: (t ++ ['\x7d']) := by
      rw [ht]
      simp
    have hskip1 : skipWS (serObj (p :: fs')) = serObj (p :: fs') := by
      rw [hobj]
      exact skipWS_cons_neg _ _ (by decide)
    have hskip2 : skipWS ('"' :: (t ++ ['\x7d'])) = '"' :: (t ++ ['\x7d']) :=
      skipWS_cons_neg _ _ (by decide)
    unfold json_loads
    simp only [mk_data]
    rw [show (serObj (p :: fs')).length + 2 = ((serObj (p :: fs')).length + 1) + 1
      from rfl]
    simp only [parseJVal]
    rw [hskip1, hobj]
    rw [hobj] at hd
    rw [hu] at hd ⊢
    have hskip2' : List.dropWhile isJsonWS ('"' :: (t ++ ['\x7d']))
        = '"' :: (t ++ ['\x7d']) := hskip2
    simp only [List.length_cons, List.length_append, List.length_nil,
      Nat.zero_add] at hd
    simp [hd, hskip2', skipWS]

theorem rev_last (X : List Char) (a : Char) : (X ++ [a]).reverse = a :: X.reverse := by
  simp

theorem take_append_len (l₁ l₂ : List Char) (n : Nat) :
    (l₁ ++ l₂).take (l₁.length + n) = l₁ ++ l₂.take n := by
  induction l₁ with
  | nil => simp
  | cons c l ih =>
    rw [List.cons_append, List.length_cons,
      show l.length + 1 + n = (l.length + n) + 1 from by omega,
      List.take_succ_cons, ih, List.cons_append]

theorem pyStripL_id_of (c d : Char) (t u : List Char) (hc : isPyWS c = false)
    (hd : isPyWS d = false) (hr : (c :: t).reverse = d :: u) :
    pyStripL (c :: t) = c :: t := by
  unfold pyStripL dropTrailingWS
  rw [List.dropWhile_cons, if_neg (by simp [hc]), hr, List.dropWhile_cons,
    if_neg (by simp [hd]), ← hr, List.reverse_reverse]

theorem pyStripL_cons_ws (c : Char) (l : List Char) (hc : isPyWS c = true) :
    pyStripL (c :: l) = pyStripL l := by
  unfold pyStripL
  rw [List.dropWhile_cons, if_pos hc]

theorem startsWithL_self_append (p l : List Char) : startsWithL p (p ++ l) = true := by
  induction p with
  | nil => rfl
  | cons c p ih => simp [startsWithL, ih]

theorem startsWithL_cons_neg (a b : Char) (as bs : List Char) (h : ¬ a = b) :
    startsWithL (a :: as) (b :: bs) = false := by
  simp [startsWithL, h]

theorem fence_pre_data : ("```json\n").data
    = '`' :: '`' :: '`' :: 'j' :: 's' :: 'o' :: 'n' :: '\n' :: [] := rfl

theorem fence_post_data : ("\n```").data = '\n' :: '`' :: '`' :: '`' :: [] := rfl

theorem fence3_data : ("```").data = '`' :: '`' :: '`' :: [] := rfl

theorem fence7_data : ("```json").data
    = '`' :: '`' :: '`' :: 'j' :: 's' :: 'o' :: 'n' :: [] := rfl

theorem strip_code_fences_plain (t u : List Char)
    (hrev : ('\x7b' :: t).reverse = '\x7d' :: u) :
    strip_code_fences ⟨'\x7b' :: t⟩ = ⟨'\x7b' :: t⟩ := by
  have h1 : pyStrip ⟨'\x7b' :: t⟩ = ⟨'\x7b' :: t⟩ := by
    show (⟨pyStripL ('\x7b' :: t)⟩ : String) = ⟨'\x7b' :: t⟩
    exact congrArg String.mk
      (pyStripL_id_of '\x7b' '\x7d' t u (by decide) (by decide) hrev)
  have b1 : startsWithL (("```json").data) ('\x7b' :: t) = false := by
    rw [fence7_data]
    exact startsWithL_cons_neg _ _ _ _ (by decide)
  have b2 : startsWithL (("```").data) ('\x7b' :: t) = false := by
    rw [fence3_data]
    exact startsWithL_cons_neg _ _ _ _ (by decide)
  have b3 : endsWithL (("```").data) ('\x7b' :: t) = false := by
    unfold endsWithL
    rw [hrev, show (("```").data).reverse = '`' :: '`' :: '`' :: [] from rfl]
    exact startsWithL_cons_neg _ _ _ _ (by decide)
  unfold strip_code_fences
  simp [h1, mk_data, b1, b2, b3]

theorem extract_json_id (t u : List Char)
    (hrev : ('\x7b' :: t).reverse = '\x7d' :: u) :
    extract_json ⟨'\x7b' :: t⟩ = ⟨'\x7b' :: t⟩ := by
  have ht : t ≠ [] := by
    intro h
    subst h
    simp at hrev
  have hfind : findIdx '\x7b' ('\x7b' :: t) = some 0 := by
    simp [findIdx]
  have hrfind : rfindIdx '\x7d' ('\x7b' :: t) = some (t.length) := by
    unfold rfindIdx
    rw [hrev]
    simp
  have hpos : 0 < t.length := List.length_pos.mpr ht
  have htake : ('\x7b' :: t).take (t.length - 0 + 1) = '\x7b' :: t := by
    rw [show t.length - 0 + 1 = ('\x7b' :: t).length from by simp]
    simp
  unfold extract_json
  simp only [mk_data, hfind, hrfind]
  rw [if_pos hpos]
  simp [htake]

theorem map_id_of_forall (f : Char → Char) (l : List Char)
    (h : ∀ c ∈ l, f c = c) : l.map f = l := by
  induction l with
  | nil => rfl
  | cons c l ih => simp [h c (by simp), ih (fun d hd => h d (by simp [hd]))]

theorem smartQuoteFix_plain (c : Char) (h : plainChar c = true) :
    smartQuoteFix c = c := by
  have hb : c.toNat ≤ 122 := (plain_toNat c h).2.1
  have h1 : ¬ (c = '“' ∨ c = '”') := by
    rintro (rfl | rfl) <;> exact absurd hb (by decide)
  have h2 : ¬ (c = '‘' ∨ c = '’') := by
    rintro (rfl | rfl) <;> exact absurd hb (by decide)
  unfold smartQuoteFix
  rw [if_neg h1, if_neg h2]

theorem smartQuoteFix_tame (c : Char) (h : tameChar c = true) :
    smartQuoteFix c = c := by
  simp [tameChar] at h
  rcases h with h | h
  · exact smartQuoteFix_plain c h
  · rcases h with rfl | rfl | rfl | rfl | rfl | rfl | rfl | rfl <;> decide

theorem normalize_quotes_tame (l : List Char)
    (h : ∀ c ∈ l, tameChar c = true) : normalize_quotes ⟨l⟩ = ⟨l⟩ := by
  show (⟨l.map smartQuoteFix⟩ : String) = ⟨l⟩
  exact congrArg String.mk
    (map_id_of_forall _ _ (fun c hc => smartQuoteFix_tame c (h c hc)))

theorem dropTrailingWS_last (X : List Char) (a : Char) (ha : isPyWS a = false) :
    dropTrailingWS (X ++ [a]) = X ++ [a] := by
  unfold dropTrailingWS
  rw [rev_last, List.dropWhile_cons, if_neg (by simp [ha]), ← rev_last,
    List.reverse_reverse]

theorem pyStripL_id_ends (c : Char) (T X : List Char) (a : Char)
    (hc : isPyWS c = false) (ha : isPyWS a = false)
    (hX : c :: T = X ++ [a]) :
    pyStripL (c :: T) = c :: T := by
  unfold pyStripL
  rw [List.dropWhile_cons, if_neg (by simp [hc]), hX, dropTrailingWS_last X a ha]

theorem strip_code_fences_fenced (t u : List Char)
    (hrev : ('\x7b' :: t).reverse = '\x7d' :: u) :
    strip_code_fences
      ⟨'`' :: '`' :: '`' :: 'j' :: 's' :: 'o' :: 'n' :: '\n'
        :: (('\x7b' :: t) ++ '\n' :: '`' :: '`' :: '`' :: [])⟩
      = ⟨'\x7b' :: t⟩ := by
  have h1 : pyStrip ⟨'`' :: '`' :: '`' :: 'j' :: 's' :: 'o' :: 'n' :: '\n'
        :: (('\x7b' :: t) ++ '\n' :: '`' :: '`' :: '`' :: [])⟩
      = ⟨'`' :: '`' :: '`' :: 'j' :: 's' :: 'o' :: 'n' :: '\n'
        :: (('\x7b' :: t) ++ '\n' :: '`' :: '`' :: '`' :: [])⟩ := by
    show (⟨pyStripL ('`' :: '`' :: '`' :: 'j' :: 's' :: 'o' :: 'n' :: '\n'
        :: (('\x7b' :: t) ++ '\n' :: '`' :: '`' :: '`' :: []))⟩ : String) = _
    exact congrArg String.mk
      (pyStripL_id_ends '`' _
        ('`' :: '`' :: '`' :: 'j' :: 's' :: 'o' :: 'n' :: '\n'
          :: (('\x7b' :: t) ++ '\n' :: '`' :: '`' :: []))
        '`' (by decide) (by decide) (by simp))
  have b1 : startsWithL (("```json").data)
      ('`' :: '`' :: '`' :: 'j' :: 's' :: 'o' :: 'n' :: '\n'
        :: (('\x7b' :: t) ++ '\n' :: '`' :: '`' :: '`' :: [])) = true := by
    rw [fence7_data,
      show ('`' :: '`' :: '`' :: 'j' :: 's' :: 'o' :: 'n' :: '\n'
          :: (('\x7b' :: t) ++ '\n' :: '`' :: '`' :: '`' :: []))
        = ('`' :: '`' :: '`' :: 'j' :: 's' :: 'o' :: 'n' :: [])
          ++ ('\n' :: (('\x7b' :: t) ++ '\n' :: '`' :: '`' :: '`' :: []))
        from by simp]
    exact startsWithL_self_append _ _
  have hdrop : ('`' :: '`' :: '`' :: 'j' :: 's' :: 'o' :: 'n' :: '\n'
        :: (('\x7b' :: t) ++ '\n' :: '`' :: '`' :: '`' :: [])).drop 7
      = '\n' :: (('\x7b' :: t) ++ '\n' :: '`' :: '`' :: '`' :: []) := rfl
  have h2 : pyStrip ⟨'\n' :: (('\x7b' :: t) ++ '\n' :: '`' :: '`' :: '`' :: [])⟩
      = ⟨('\x7b' :: t) ++ '\n' :: '`' :: '`' :: '`' :: []⟩ := by
    show (⟨pyStripL ('\n' :: (('\x7b' :: t) ++ '\n' :: '`' :: '`' :: '`' :: []))⟩
      : String) = _
    refine congrArg String.mk ?_
    rw [pyStripL_cons_ws _ _ (by decide),
      show ('\x7b' :: t) ++ '\n' :: '`' :: '`' :: '`' :: []
        = '\x7b' :: (t ++ '\n' :: '`' :: '`' :: '`' :: []) from by simp]
    exact pyStripL_id_ends '\x7b' _
      ('\x7b' :: (t ++ '\n' :: '`' :: '`' :: [])) '`'
      (by decide) (by decide) (by simp)
  have b2 : startsWithL (("```").data)
      (('\x7b' :: t) ++ '\n' :: '`' :: '`' :: '`' :: []) = false := by
    rw [fence3_data,
      show ('\x7b' :: t) ++ '\n' :: '`' :: '`' :: '`' :: []
        = '\x7b' :: (t ++ '\n' :: '`' :: '`' :: '`' :: []) from by simp]
    exact startsWithL_cons_neg _ _ _ _ (by decide)
  have b3 : endsWithL (("```").data)
      (('\x7b' :: t) ++ '\n' :: '`' :: '`' :: '`' :: []) = true := by
    unfold endsWithL
    rw [show (("```").data).reverse = '`' :: '`' :: '`' :: [] from rfl,
      show (('\x7b' :: t) ++ '\n' :: '`' :: '`' :: '`' :: []).reverse
        = ('`' :: '`' :: '`' :: [])
          ++ ('\n' :: ('\x7b' :: t).reverse) from by simp]
    exact startsWithL_self_append _ _
  have htake : (('\x7b' :: t) ++ '\n' :: '`' :: '`' :: '`' :: []).take
        ((('\x7b' :: t) ++ '\n' :: '`' :: '`' :: '`' :: []).length - 3)
      = ('\x7b' :: t) ++ ['\n'] := by
    rw [show (('\x7b' :: t) ++ '\n' :: '`' :: '`' :: '`' :: []).length - 3
        = ('\x7b' :: t).length + 1 from by simp,
      take_append_len]
    simp
  have h4 : pyStrip ⟨('\x7b' :: t) ++ ['\n']⟩ = ⟨'\x7b' :: t⟩ := by
    show (⟨pyStripL (('\x7b' :: t) ++ ['\n'])⟩ : String) = _
    refine congrArg String.mk ?_
    unfold pyStripL dropTrailingWS
    rw [show ('\x7b' :: t) ++ ['\n'] = '\x7b' :: (t ++ ['\n']) from by simp,
      List.dropWhile_cons, if_neg (by decide),
      show '\x7b' :: (t ++ ['\n']) = ('\x7b' :: t) ++ ['\n'] from by simp,
      rev_last, List.dropWhile_cons, if_pos (by decide), hrev,
      List.dropWhile_cons, if_neg (by decide), ← hrev, List.reverse_reverse]
  unfold strip_code_fences
  dsimp only
  rw [h1]
  dsimp only
  rw [b1]
  simp only [reduceIte]
  rw [hdrop, h2]
  dsimp only
  rw [b2]
  simp only [Bool.false_eq_true, reduceIte]
  rw [b3]
  simp only [reduceIte]
  rw [htake, h4]

theorem tame_of_plain (c : Char) (h : plainChar c = true) : tameChar c = true := by
  simp [tameChar, h]

theorem tame_quoteL (s : List Char) (hs : ∀ c ∈ s, plainChar c = true) :
    ∀ c ∈ quoteL s, tameChar c = true := by
  intro c hc
  simp [quoteL] at hc
  rcases hc with rfl | hc | rfl
  · decide
  · exact tame_of_plain c (hs c hc)
  · decide

theorem tame_serItems (xs : List (List Char))
    (hx : ∀ x ∈ xs, ∀ c ∈ x, plainChar c = true) :
    ∀ c ∈ serItems xs, tameChar c = true := by
  induction xs with
  | nil => intro c hc; simp [serItems] at hc
  | cons x xs ih =>
    intro c hc
    cases xs with
    | nil =>
      simp only [serItems] at hc
      exact tame_quoteL x (hx x (by simp)) c hc
    | cons y ys =>
      simp only [serItems] at hc
      rcases List.mem_append.mp hc with h1 | h2
      · exact tame_quoteL x (hx x (by simp)) c h1
      · rcases List.mem_cons.mp h2 with rfl | h3
        · decide
        · rcases List.mem_cons.mp h3 with rfl | h4
          · decide
          · exact ih (fun z hz => hx z (by simp [hz])) c h4

theorem tame_serPV (v : PV) (hv : goodPV v = true) :
    ∀ c ∈ serPV v, tameChar c = true := by
  cases v with
  | pstr s =>
    intro c hc
    simp only [serPV] at hc
    refine tame_quoteL s ?_ c hc
    intro d hd
    simp [goodPV] at hv
    exact hv d hd
  | plist xs =>
    intro c hc
    simp only [serPV] at hc
    rcases List.mem_cons.mp hc with rfl | h2
    · decide
    · rcases List.mem_append.mp h2 with h3 | h4
      · refine tame_serItems xs ?_ c h3
        intro z hz d hd
        simp [goodPV] at hv
        exact hv z hz d hd
      · rcases List.mem_cons.mp h4 with rfl | h5
        · decide
        · simp at h5

theorem tame_serMembers (fs : List (List Char × PV))
    (hgood : goodFields fs = true) :
    ∀ c ∈ serMembers fs, tameChar c = true := by
  induction fs with
  | nil => intro c hc; simp [serMembers] at hc
  | cons p fs ih =>
    obtain ⟨k, v⟩ := p
    simp only [goodFields, List.all_cons, Bool.and_eq_true] at hgood
    obtain ⟨⟨hka, hv⟩, hgood'⟩ := hgood
    have hk : ∀ c ∈ k, plainChar c = true := fun c hc => List.all_eq_true.mp hka c hc
    have hmem : ∀ c ∈ serMember k v, tameChar c = true := by
      intro c hc
      simp only [serMember] at hc
      rcases List.mem_append.mp hc with h1 | h2
      · exact tame_quoteL k hk c h1
      · rcases List.mem_cons.mp h2 with rfl | h3
        · decide
        · rcases List.mem_cons.mp h3 with rfl | h4
          · decide
          · exact tame_serPV v hv c h4
    intro c hc
    cases fs with
    | nil =>
      simp only [serMembers] at hc
      exact hmem c hc
    | cons m fs' =>
      simp only [serMembers] at hc
      rcases List.mem_append.mp hc with h1 | h2
      · exact hmem c h1
      · rcases List.mem_cons.mp h2 with rfl | h3
        · decide
        · rcases List.mem_cons.mp h3 with rfl | h4
          · decide
          · exact ih hgood' c h4

theorem tame_serObj (fs : List (List Char × PV)) (hgood : goodFields fs = true) :
    ∀ c ∈ serObj fs, tameChar c = true := by
  intro c hc
  simp only [serObj] at hc
  rcases List.mem_cons.mp hc with rfl | h2
  · decide
  · rcases List.mem_append.mp h2 with h3 | h4
    · exact tame_serMembers fs hgood c h3
    · rcases List.mem_cons.mp h4 with rfl | h5
      · decide
      · simp at h5

theorem tame_split (A B : List Char) (b : Char)
    (h : ∀ c ∈ A ++ b :: B, tameChar c = true) :
    ∀ c ∈ A ++ ',' :: b :: B, tameChar c = true := by
  intro c hc
  rcases List.mem_append.mp hc with hA | hB
  · exact h c (List.mem_append.mpr (Or.inl hA))
  · rcases List.mem_cons.mp hB with rfl | hB'
    · decide
    · exact h c (List.mem_append.mpr (Or.inr hB'))

theorem commaSafe_cons_of (c : Char) (l : List Char)
    (h : commaSafe (c :: l) = true) : commaSafe l = true := by
  simp only [commaSafe, Bool.and_eq_true] at h
  exact h.2

theorem commaSafe_cons_nc (c : Char) (l : List Char) (hc : ¬ c = ',')
    (h : commaSafe l = true) : commaSafe (c :: l) = true := by
  simp only [commaSafe, Bool.and_eq_true]
  exact ⟨by rw [if_neg hc], h⟩

theorem noComma_commaSafe (X Y : List Char) (hX : ∀ c ∈ X, ¬ c = ',')
    (hY : commaSafe Y = true) : commaSafe (X ++ Y) = true := by
  induction X with
  | nil => exact hY
  | cons c X ih =>
    rw [List.cons_append]
    exact commaSafe_cons_nc c _ (hX c (by simp))
      (ih (fun d hd => hX d (by simp [hd])))

theorem quoteL_no_comma (s : List Char) (hs : ∀ c ∈ s, plainChar c = true) :
    ∀ c ∈ quoteL s, ¬ c = ',' := by
  intro c hc
  simp [quoteL] at hc
  rcases hc with rfl | hc | rfl
  · decide
  · intro he
    subst he
    exact (plain_toNat _ (hs _ hc)).2.2.2.2.1 (by decide)
  · decide

theorem commaSafe_quote_head (t Y : List Char)
    (h : commaSafe ('"' :: (t ++ Y)) = true) :
    commaSafe (',' :: ' ' :: '"' :: (t ++ Y)) = true := by
  simp only [commaSafe, Bool.and_eq_true] at h ⊢
  refine ⟨by simp, ⟨by simp, h⟩⟩

theorem commaSafe_serItems (xs : List (List Char))
    (hx : ∀ x ∈ xs, ∀ c ∈ x, plainChar c = true)
    (Y : List Char) (hY : commaSafe Y = true) :
    commaSafe (serItems xs ++ Y) = true := by
  induction xs with
  | nil => exact hY
  | cons x xs ih =>
    cases xs with
    | nil =>
      simp only [serItems]
      exact noComma_commaSafe _ _ (quoteL_no_comma x (hx x (by simp))) hY
    | cons y ys =>
      obtain ⟨t, ht⟩ := serItems_cons_shape y ys
      have htail : commaSafe (serItems (y :: ys) ++ Y) = true :=
        ih (fun z hz => hx z (by simp [hz]))
      have htail' : commaSafe ('"' :: (t ++ Y)) = true := by
        rw [ht] at htail
        simpa using htail
      have hmid : commaSafe (',' :: ' ' :: (serItems (y :: ys) ++ Y)) = true := by
        rw [ht, show ('"' :: t) ++ Y = '"' :: (t ++ Y) from by simp]
        exact commaSafe_quote_head t Y htail'
      simp only [serItems]
      rw [show (quoteL x ++ ',' :: ' ' :: serItems (y :: ys)) ++ Y
          = quoteL x ++ (',' :: ' ' :: (serItems (y :: ys) ++ Y)) from by simp]
      exact noComma_commaSafe _ _ (quoteL_no_comma x (hx x (by simp))) hmid

theorem commaSafe_serPV (v : PV) (hv : goodPV v = true)
    (Y : List Char) (hY : commaSafe Y = true) :
    commaSafe (serPV v ++ Y) = true := by
  cases v with
  | pstr s =>
    refine noComma_commaSafe _ _ (quoteL_no_comma s ?_) hY
    intro d hd
    simp [goodPV] at hv
    exact hv d hd
  | plist xs =>
    have hx : ∀ x ∈ xs, ∀ c ∈ x, plainChar c = true := by
      intro z hz d hd
      simp [goodPV, List.all_eq_true] at hv
      exact hv z hz d hd
    rw [show serPV (PV.plist xs) ++ Y = '[' :: (serItems xs ++ (']' :: Y))
      from by simp [serPV]]
    exact commaSafe_cons_nc '[' _ (by decide)
      (commaSafe_serItems xs hx (']' :: Y)
        (commaSafe_cons_nc ']' Y (by decide) hY))

theorem commaSafe_serMember (k : List Char) (v : PV)
    (hk : ∀ c ∈ k, plainChar c = true) (hv : goodPV v = true)
    (Y : List Char) (hY : commaSafe Y = true) :
    commaSafe (serMember k v ++ Y) = true := by
  rw [show serMember k v ++ Y = quoteL k ++ (':' :: ' ' :: (serPV v ++ Y))
    from by simp [serMember]]
  exact noComma_commaSafe _ _ (quoteL_no_comma k hk)
    (commaSafe_cons_nc ':' _ (by decide)
      (commaSafe_cons_nc ' ' _ (by decide) (commaSafe_serPV v hv Y hY)))

theorem commaSafe_serMembers (fs : List (List Char × PV))
    (hgood : goodFields fs = true)
    (Y : List Char) (hY : commaSafe Y = true) :
    commaSafe (serMembers fs ++ Y) = true := by
  induction fs with
  | nil => exact hY
  | cons p fs ih =>
    obtain ⟨k, v⟩ := p
    simp only [goodFields, List.all_cons, Bool.and_eq_true] at hgood
    obtain ⟨⟨hka, hv⟩, hgood'⟩ := hgood
    have hk : ∀ c ∈ k, plainChar c = true := fun c hc => List.all_eq_true.mp hka c hc
    cases fs with
    | nil =>
      simp only [serMembers]
      exact commaSafe_serMember k v hk hv Y hY
    | cons m fs' =>
      obtain ⟨t, ht⟩ := serMembers_cons_shape m fs'
      have htail : commaSafe (serMembers (m :: fs') ++ Y) = true := ih hgood'
      have htail' : commaSafe ('"' :: (t ++ Y)) = true := by
        rw [ht] at htail
        simpa using htail
      have hmid : commaSafe (',' :: ' ' :: (serMembers (m :: fs') ++ Y)) = true := by
        rw [ht, show ('"' :: t) ++ Y = '"' :: (t ++ Y) from by simp]
        exact commaSafe_quote_head t Y htail'
      simp only [serMembers]
      rw [show (serMember k v ++ ',' :: ' ' :: serMembers (m :: fs')) ++ Y
          = serMember k v ++ (',' :: ' ' :: (serMembers (m :: fs') ++ Y))
        from by simp]
      exact commaSafe_serMember k v hk hv _ hmid

theorem commaSafe_serObj (fs : List (List Char × PV))
    (hgood : goodFields fs = true) : commaSafe (serObj fs) = true := by
  rw [show serObj fs = '\x7b' :: (serMembers fs ++ ('\x7d' :: []))
    from by simp [serObj]]
  exact commaSafe_cons_nc '\x7b' _ (by decide)
    (commaSafe_serMembers fs hgood ('\x7d' :: [])
      (commaSafe_cons_nc '\x7d' [] (by decide) rfl))

theorem tcFree_tail (c : Char) (l : List Char) (h : tcFree (c :: l) = true) :
    tcFree l = true := by
  simp only [tcFree, Bool.and_eq_true] at h
  exact h.2

theorem tcFree_suffix (X Y : List Char) (h : tcFree (X ++ Y) = true) :
    tcFree Y = true := by
  induction X with
  | nil => exact h
  | cons c X ih => exact ih (tcFree_tail c _ h)

theorem tcFree_of_commaSafe (l : List Char) (h : commaSafe l = true) :
    tcFree l = true := by
  induction l with
  | nil => rfl
  | cons c rest ih =>
    have hrest : commaSafe rest = true := commaSafe_cons_of c rest h
    simp only [tcFree, Bool.and_eq_true]
    refine ⟨?_, ih hrest⟩
    by_cases hc : c = ','
    · subst hc
      simp only [commaSafe, Bool.and_eq_true] at h
      have h1 := h.1
      simp only [if_true] at h1
      cases rest with
      | nil => simp at h1
      | cons d rest2 =>
        cases rest2 with
        | nil => simp at h1
        | cons e r =>
          simp only [Bool.and_eq_true, decide_eq_true_eq] at h1
          obtain ⟨hd, he⟩ := h1
          subst hd
          subst he
          simp [tcMatchAt, List.dropWhile, isPyWS]
    · simp [tcMatchAt, hc]

theorem tcSubAux_id (fuel : Nat) (l : List Char) (h : tcFree l = true) :
    tcSubAux fuel l = l := by
  induction fuel generalizing l with
  | zero => rfl
  | succ f ih =>
    cases l with
    | nil => rfl
    | cons c rest =>
      have hmatch : tcMatchAt (c :: rest) = false := by
        simp only [tcFree, Bool.and_eq_true] at h
        simpa using h.1
      have hrest : tcFree rest = true := tcFree_tail c rest h
      simp only [tcSubAux]
      by_cases hc : c = ','
      · subst hc
        rw [if_pos rfl]
        cases hdw : rest.dropWhile isPyWS with
        | nil =>
          simp only [hdw]
          rw [ih rest hrest]
        | cons b rest2 =>
          have hb : ¬ (b = ']' ∨ b = '\x7d') := by
            simp only [tcMatchAt, hdw] at hmatch
            simpa using hmatch
          simp only [hdw]
          rw [if_neg hb, ih rest hrest]
      · rw [if_neg hc, ih rest hrest]

theorem tcSubAux_inject (b : Char) (hb : b = ']' ∨ b = '\x7d') :
    ∀ (A B : List Char) (fuel : Nat),
    commaSafe (A ++ b :: B) = true → tcFree (b :: B) = true →
    A.length < fuel →
    tcSubAux fuel (A ++ ',' :: b :: B) = A ++ b :: B := by
  intro A
  induction A with
  | nil =>
    intro B fuel hsafe hfree hlen
    cases fuel with
    | zero => exact absurd hlen (Nat.not_lt_zero _)
    | succ f =>
      have hbws : isPyWS b = false := by
        rcases hb with rfl | rfl <;> decide
      simp only [List.nil_append, tcSubAux]
      simp only [if_true]
      rw [show (b :: B).dropWhile isPyWS = b :: B
        from by rw [List.dropWhile_cons, if_neg (by simp [hbws])]]
      dsimp only
      rw [if_pos hb, tcSubAux_id f B (tcFree_tail b B hfree)]
  | cons a A1 ih =>
    intro B fuel hsafe hfree hlen
    cases fuel with
    | zero => exact absurd hlen (Nat.not_lt_zero _)
    | succ f =>
      have hsafe' : commaSafe (A1 ++ b :: B) = true := by
        rw [List.cons_append] at hsafe
        exact commaSafe_cons_of a _ hsafe
      have hlen' : A1.length < f := by
        simp only [List.length_cons] at hlen
        omega
      rw [List.cons_append]
      simp only [tcSubAux]
      by_cases ha : a = ','
      · subst ha
        rw [if_pos rfl]
        rw [List.cons_append] at hsafe
        simp only [commaSafe, Bool.and_eq_true] at hsafe
        have h1 := hsafe.1
        simp only [if_true] at h1
        cases A1 with
        | nil =>
          exfalso
          cases B with
          | nil => exact absurd h1 (by rcases hb with rfl | rfl <;> decide)
          | cons e B' =>
            simp only [List.nil_append] at h1
            simp only [Bool.and_eq_true, decide_eq_true_eq] at h1
            rcases hb with rfl | rfl <;> exact absurd h1.1 (by decide)
        | cons x A2 =>
          cases A2 with
          | nil =>
            exfalso
            simp only [List.cons_append, List.nil_append] at h1
            simp only [Bool.and_eq_true, decide_eq_true_eq] at h1
            rcases hb with rfl | rfl <;> exact absurd h1.2 (by decide)
          | cons y A3 =>
            simp only [List.cons_append] at h1
            simp only [Bool.and_eq_true, decide_eq_true_eq] at h1
            obtain ⟨hx, hy⟩ := h1
            subst hx
            subst hy
            rw [show (' ' :: '"' :: A3) ++ ',' :: b :: B
                = ' ' :: '"' :: (A3 ++ ',' :: b :: B) from by simp]
            rw [show (' ' :: '"' :: (A3 ++ ',' :: b :: B)).dropWhile isPyWS
                = '"' :: (A3 ++ ',' :: b :: B) from by
              rw [List.dropWhile_cons, if_pos (by decide), List.dropWhile_cons,
                if_neg (by decide)]]
            dsimp only
            rw [if_neg (by decide)]
            have hrec := ih B f hsafe' hfree hlen'
            rw [show (' ' :: '"' :: A3) ++ ',' :: b :: B
                = ' ' :: '"' :: (A3 ++ ',' :: b :: B) from by simp] at hrec
            rw [hrec]
            simp
      · rw [if_neg ha, ih B f hsafe' hfree hlen']
        simp

theorem midrev_shape (fs : List (List Char × PV)) (A₀ B : List Char) (b : Char)
    (hsplit : serObj fs = ('\x7b' :: A₀) ++ b :: B) :
    ∃ u, ('\x7b' :: (A₀ ++ ',' :: b :: B)).reverse = '\x7d' :: u := by
  have hobj : serObj fs = '\x7b' :: (serMembers fs ++ ['\x7d']) := by
    simp [serObj]
  have h1 : (serObj fs).reverse = '\x7d' :: ((serMembers fs).reverse ++ ['\x7b']) := by
    rw [hobj]
    simp
  have h2 : (serObj fs).reverse = B.reverse ++ b :: ('\x7b' :: A₀).reverse := by
    rw [hsplit]
    simp
  have hrevsplit : B.reverse ++ b :: ('\x7b' :: A₀).reverse
      = '\x7d' :: ((serMembers fs).reverse ++ ['\x7b']) := h2.symm.trans h1
  cases hBr : B.reverse with
  | nil =>
    rw [hBr, List.nil_append] at hrevsplit
    have hb' := (List.cons.injEq _ _ _ _).mp hrevsplit
    have hBnil : B = [] := by
      have := congrArg List.reverse hBr
      simpa using this
    subst hBnil
    refine ⟨',' :: ('\x7b' :: A₀).reverse, ?_⟩
    simp [hb'.1]
  | cons r rs =>
    rw [hBr, List.cons_append] at hrevsplit
    have hr := ((List.cons.injEq _ _ _ _).mp hrevsplit).1
    refine ⟨rs ++ b :: ',' :: ('\x7b' :: A₀).reverse, ?_⟩
    rw [show ('\x7b' :: (A₀ ++ ',' :: b :: B)).reverse
        = B.reverse ++ b :: ',' :: ('\x7b' :: A₀).reverse from by simp, hBr, hr]
    simp

/-- C6: for every well-formed persona JSON object (string fields and
string-list fields whose keys and values use plain characters — letters,
digits, space, and basic punctuation, excluding quotes, braces, brackets,
commas and backslashes), wrapping the serialized object in a Markdown
```json code fence and injecting a trailing comma immediately before a
closing bracket or brace yields, after the coercion step, a record equal
field-for-field to coercing the unfenced, uninjected serialization; both
come from a successful JSON parse of the repaired text, not from the
fallback record. -/
theorem C6_repair_round_trip (mode : TMode) (hobby : String)
    (fs : List (List Char × PV)) (hgood : goodFields fs = true)
    (A B : List Char) (b : Char) (hb : b = ']' ∨ b = '\x7d')
    (hsplit : serObj fs = A ++ b :: B) :
    coercePersona mode hobby ⟨fenceWrapL (A ++ ',' :: b :: B)⟩
      = coercePersona mode hobby ⟨serObj fs⟩ ∧
    ∃ d, coercePersona mode hobby ⟨serObj fs⟩
      = Except.ok (postProcess mode d) := by
  have hobj : serObj fs = '\x7b' :: (serMembers fs ++ ['\x7d']) := by
    simp [serObj]
  obtain ⟨A₀, rfl⟩ : ∃ A₀, A = '\x7b' :: A₀ := by
    cases A with
    | nil =>
      exfalso
      rw [hobj] at hsplit
      simp only [List.nil_append] at hsplit
      have hh := (List.cons.injEq _ _ _ _).mp hsplit
      rcases hb with rfl | rfl <;> exact absurd hh.1 (by decide)
    | cons a A₀ =>
      rw [hobj, List.cons_append] at hsplit
      have hh := (List.cons.injEq _ _ _ _).mp hsplit
      exact ⟨A₀, by rw [hh.1]⟩
  have hmid : (('\x7b' :: A₀) ++ ',' :: b :: B)
      = '\x7b' :: (A₀ ++ ',' :: b :: B) := by simp
  obtain ⟨u, hrev⟩ := midrev_shape fs A₀ B b hsplit
  have htame : ∀ c ∈ '\x7b' :: (A₀ ++ ',' :: b :: B), tameChar c = true := by
    rw [← hmid]
    refine tame_split _ _ _ ?_
    rw [← hsplit]
    exact tame_serObj fs hgood
  have hsafe : commaSafe (('\x7b' :: A₀) ++ b :: B) = true := by
    rw [← hsplit]
    exact commaSafe_serObj fs hgood
  have hfreeB : tcFree (b :: B) = true := by
    refine tcFree_suffix ('\x7b' :: A₀) _ ?_
    rw [← hsplit]
    exact tcFree_of_commaSafe _ (commaSafe_serObj fs hgood)
  have hCW : coerce_json_text ⟨fenceWrapL (('\x7b' :: A₀) ++ ',' :: b :: B)⟩
      = ⟨serObj fs⟩ := by
    rw [hmid]
    unfold coerce_json_text
    rw [show fenceWrapL ('\x7b' :: (A₀ ++ ',' :: b :: B))
        = '`' :: '`' :: '`' :: 'j' :: 's' :: 'o' :: 'n' :: '\n'
          :: (('\x7b' :: (A₀ ++ ',' :: b :: B)) ++ '\n' :: '`' :: '`' :: '`' :: [])
      from by simp [fenceWrapL, fence_pre_data, fence_post_data]]
    rw [strip_code_fences_fenced (A₀ ++ ',' :: b :: B) u hrev]
    rw [extract_json_id (A₀ ++ ',' :: b :: B) u hrev]
    rw [normalize_quotes_tame _ htame]
    show (⟨tcSub ('\x7b' :: (A₀ ++ ',' :: b :: B))⟩ : String) = ⟨serObj fs⟩
    unfold tcSub
    rw [show '\x7b' :: (A₀ ++ ',' :: b :: B) = ('\x7b' :: A₀) ++ ',' :: b :: B
      from by simp]
    rw [tcSubAux_inject b hb ('\x7b' :: A₀) B _ hsafe hfreeB
      (by simp [List.length_append]; omega)]
    rw [← hsplit]
  have hobjrev : ('\x7b' :: (serMembers fs ++ ['\x7d'])).reverse
      = '\x7d' :: ((serMembers fs).reverse ++ ['\x7b']) := by simp
  have htameObj : ∀ c ∈ '\x7b' :: (serMembers fs ++ ['\x7d']), tameChar c = true := by
    rw [← hobj]
    exact tame_serObj fs hgood
  have hfreeObj : tcFree ('\x7b' :: (serMembers fs ++ ['\x7d'])) = true := by
    rw [← hobj]
    exact tcFree_of_commaSafe _ (commaSafe_serObj fs hgood)
  have hCP : coerce_json_text ⟨serObj fs⟩ = ⟨serObj fs⟩ := by
    rw [hobj]
    unfold coerce_json_text
    rw [strip_code_fences_plain _ _ hobjrev]
    rw [extract_json_id _ _ hobjrev]
    rw [normalize_quotes_tame _ htameObj]
    show (⟨tcSub ('\x7b' :: (serMembers fs ++ ['\x7d']))⟩ : String)
      = ⟨'\x7b' :: (serMembers fs ++ ['\x7d'])⟩
    unfold tcSub
    rw [tcSubAux_id _ _ hfreeObj]
  obtain ⟨d, hd⟩ := json_loads_serObj fs hgood
  have hdP : json_loads (coerce_json_text ⟨serObj fs⟩) = some (JVal.jobj d) := by
    rw [hCP]
    exact hd
  have hdW : json_loads
      (coerce_json_text ⟨fenceWrapL (('\x7b' :: A₀) ++ ',' :: b :: B)⟩)
      = some (JVal.jobj d) := by
    rw [hCW]
    exact hd
  have hparseW : parsePersonaText ⟨fenceWrapL (('\x7b' :: A₀) ++ ',' :: b :: B)⟩
      = some (JVal.jobj d) := by
    unfold parsePersonaText
    rw [hdW]
  have hparseP : parsePersonaText ⟨serObj fs⟩ = some (JVal.jobj d) := by
    unfold parsePersonaText
    rw [hdP]
  refine ⟨?_, ⟨d, ?_⟩⟩
  · unfold coercePersona
    rw [hparseW, hparseP]
  · unfold coercePersona
    rw [hparseP]

/-- Witness for C6 on the concrete kingdom/titles persona: comma injected
before the closing brace of the fenced serialization. -/
theorem C6_repair_round_trip_witness :
    goodFields c6Fields = true ∧
    serObj c6Fields = c6Body ++ '\x7d' :: [] ∧
    (coercePersona TMode.modern ("x") ⟨fenceWrapL (c6Body ++ ',' :: '\x7d' :: [])⟩
        = coercePersona TMode.modern ("x") ⟨serObj c6Fields⟩ ∧
      ∃ d, coercePersona TMode.modern ("x") ⟨serObj c6Fields⟩
        = Except.ok (postProcess TMode.modern d)) :=
  ⟨by decide, by decide,
    C6_repair_round_trip TMode.modern ("x") c6Fields (by decide) c6Body []
      '\x7d' (Or.inr rfl) (by decide)⟩

/-- Witness for C8 at detail levels 2 and 3. -/
theorem C8_length_for_budget_witness :
    length_for 2 320 180 1200 = min 1200 (320 + (2 - 1) * 180) ∧
    length_for 2 700 300 1800 ≤ length_for 3 700 300 1800 ∧
    length_for 3 950 120 1400 ≤ 1400 :=
  ⟨(C8_length_for_budget 2 3 (by decide) (by decide) (by decide)).1.1,
   (C8_length_for_budget 2 3 (by decide) (by decide) (by decide)).2.1.2.1,
   (C8_length_for_budget 3 3 (by decide) (by decide) (by decide)).2.2.2.2⟩

end ParsVerse
